import Mathlib

/-!
# Remote file explorer: path translation and page model

A shallow embedding of `explorer.go` (package `main`) together with the parts of the Go
standard library it calls (`strings`, `net/url`, `path/filepath`, `html/template`),
followed by theorems about the embedded functions.

Go strings are byte sequences; they are modelled as lists of bytes.  The platform test
`runtime.GOOS == "windows"` is the boolean parameter `windows` of the functions that
perform it.
-/

namespace Explorer

/-- A Go `byte`. -/
abbrev Byte := Fin 256

/-- A Go `string`: an immutable sequence of bytes. -/
abbrev GoString := List Byte

/-- The bytes (UTF-8) of a string literal. -/
def str (s : String) : GoString := s.toUTF8.data.toList.map (fun b => b.val)

/-! ## Package `strings` -/

namespace strings

/-- Go `strings.HasPrefix`: `len(s) >= len(prefix) && s[:len(prefix)] == prefix`. -/
def HasPrefix (s pre : GoString) : Bool :=
  decide (s.length ≥ pre.length) && (s.take pre.length == pre)

/-- Go `strings.HasSuffix`:
`len(s) >= len(suffix) && s[len(s)-len(suffix):] == suffix`. -/
def HasSuffix (s suffix : GoString) : Bool :=
  decide (s.length ≥ suffix.length) && (s.drop (s.length - suffix.length) == suffix)

/-- The search of `strings.Index` from offset `i`: the index of the first instance of
`substr` in the remaining text, `none` standing for Go's `-1`. -/
def indexFrom (substr : GoString) : GoString → Nat → Option Nat
  | [], i => if substr = [] then some i else none
  | c :: rest, i =>
    if HasPrefix (c :: rest) substr then some i else indexFrom substr rest (i + 1)

/-- Go `strings.Index`: the index of the first instance of `substr` in `s`, or `none`
(Go: `-1`) if `substr` is not present in `s`. -/
def Index (s substr : GoString) : Option Nat := indexFrom substr s 0

/-- The loop of `strings.Count` for a non-empty `substr`:
`for { i := Index(s, substr); if i == -1 { return n }; n++; s = s[i+len(substr):] }`.
Every round removes at least one byte of `s`, so `len(s) + 1` rounds are enough. -/
def countLoop (substr : GoString) : Nat → GoString → Nat → Nat
  | 0, _, n => n
  | fuel + 1, s, n =>
    match Index s substr with
    | none => n
    | some i => countLoop substr fuel (s.drop (i + substr.length)) (n + 1)

/-- Go `strings.Count` for a non-empty `substr`: the number of non-overlapping instances
of `substr` in `s`.  (For an empty `substr` Go returns the rune count plus one; the program
never passes an empty `substr`, and that case is left at `0` here.) -/
def Count (s substr : GoString) : Nat :=
  if substr = [] then 0 else countLoop substr (s.length + 1) s 0

/-- The loop of `strings.Replace` applying `n` replacements to the text `s[start:]`:
`j := start + Index(s[start:], old); b.WriteString(s[start:j]); b.WriteString(new);
start = j + len(old)`, and after the loop `b.WriteString(s[start:])`. -/
def replaceLoop (old new : GoString) : Nat → GoString → GoString
  | 0, rest => rest
  | n + 1, rest =>
    match Index rest old with
    | none => rest
    | some j => rest.take j ++ new ++ replaceLoop old new n (rest.drop (j + old.length))

/-- Go `strings.Replace(s, old, new, n)` for a non-empty `old`: a copy of `s` with the
first `n` non-overlapping instances of `old` replaced by `new`; if `n < 0` there is no
limit on the number of replacements. -/
def Replace (s old new : GoString) (n : Int) : GoString :=
  if old = new ∨ n = 0 then s
  else
    let m := Count s old
    if m = 0 then s
    else
      let k : Nat := if n < 0 ∨ (m : Int) < n then m else n.toNat
      replaceLoop old new k s

end strings

/-! ## Package `net/url` -/

namespace url

/-- Go `url.ishex`. -/
def ishex (c : Byte) : Bool :=
  (48 ≤ c && c ≤ 57) || (97 ≤ c && c ≤ 102) || (65 ≤ c && c ≤ 70)

/-- Go `url.unhex`: the value of a hexadecimal digit (byte arithmetic). -/
def unhex (c : Byte) : Byte :=
  if 48 ≤ c ∧ c ≤ 57 then c - 48
  else if 97 ≤ c ∧ c ≤ 102 then c - 97 + 10
  else if 65 ≤ c ∧ c ≤ 70 then c - 65 + 10
  else 0

/-- Go `url.shouldEscape(c, encodeQueryComponent)`: letters, digits and the marks
`-` `_` `.` `~` are left alone, every other byte is escaped. -/
def shouldEscape (c : Byte) : Bool :=
  if (97 ≤ c ∧ c ≤ 122) ∨ (65 ≤ c ∧ c ≤ 90) ∨ (48 ≤ c ∧ c ≤ 57) then false
  else if c = 45 ∨ c = 95 ∨ c = 46 ∨ c = 126 then false
  else true

/-- The table `upperhex = "0123456789ABCDEF"` indexed by a nibble. -/
def upperhex (i : Byte) : Byte :=
  (str "0123456789ABCDEF").getD i.val 0

/-- The first loop of `url.escape`: the numbers of spaces and of other bytes to escape. -/
def escapeCount : GoString → Nat → Nat → Nat × Nat
  | [], spaceCount, hexCount => (spaceCount, hexCount)
  | c :: rest, spaceCount, hexCount =>
    if shouldEscape c then
      if c = 32 then escapeCount rest (spaceCount + 1) hexCount
      else escapeCount rest spaceCount (hexCount + 1)
    else escapeCount rest spaceCount hexCount

/-- The second loop of `url.escape` in mode `encodeQueryComponent`: a space becomes `+`,
a byte to escape becomes `%` and its two upper-case hex digits, any other byte is copied. -/
def escapeBuild : GoString → GoString
  | [] => []
  | c :: rest =>
    if c = 32 then 43 :: escapeBuild rest
    else if shouldEscape c then 37 :: upperhex (c >>> 4) :: upperhex (c &&& 15) :: escapeBuild rest
    else c :: escapeBuild rest

/-- The bytes that occur in the result of `url.QueryEscape`: ASCII letters, digits,
`-` `_` `.` `~` `%` and `+`. -/
def queryEscapedByte (b : Byte) : Bool :=
  (97 ≤ b && b ≤ 122) || (65 ≤ b && b ≤ 90) || (48 ≤ b && b ≤ 57) ||
    b == 45 || b == 95 || b == 46 || b == 126 || b == 37 || b == 43

/-- Go `url.QueryEscape(s)`, that is `escape(s, encodeQueryComponent)`. -/
def QueryEscape (s : GoString) : GoString :=
  let (spaceCount, hexCount) := escapeCount s 0 0
  if spaceCount = 0 ∧ hexCount = 0 then s else escapeBuild s

/-- The first loop of `url.unescape` in mode `encodeQueryComponent`: counts the `%` and
notes a `+`; at a `%` that is not followed by two hex digits it stops with the
`EscapeError` text (`s[i:]` cut to three bytes). -/
def unescapeScan : GoString → Nat → Bool → Except GoString (Nat × Bool)
  | [], n, hasPlus => .ok (n, hasPlus)
  | c :: rest, n, hasPlus =>
    if c = 37 then
      match rest with
      | a :: b :: rest2 =>
        if ishex a && ishex b then unescapeScan rest2 (n + 1) hasPlus
        else .error ((c :: rest).take 3)
      | _ => .error ((c :: rest).take 3)
    else if c = 43 then unescapeScan rest n true
    else unescapeScan rest n hasPlus

/-- The second loop of `url.unescape` in mode `encodeQueryComponent`: `%XY` becomes the
byte `unhex(X)<<4 | unhex(Y)`, `+` becomes a space, any other byte is copied.  (It runs
only on text the first loop accepted, where every `%` has two bytes after it.) -/
def unescapeBuild : GoString → GoString
  | [] => []
  | c :: rest =>
    if c = 37 then
      match rest with
      | a :: b :: rest2 => ((unhex a <<< 4) ||| unhex b) :: unescapeBuild rest2
      | _ => []
    else if c = 43 then 32 :: unescapeBuild rest
    else c :: unescapeBuild rest

/-- Go `url.QueryUnescape(s)`, that is `unescape(s, encodeQueryComponent)`, with its two
results: the string and the error (`none` for `nil`).  On a malformed escape Go returns
`"", EscapeError(...)`. -/
def QueryUnescape (s : GoString) : GoString × Option GoString :=
  match unescapeScan s 0 false with
  | .error e => ([], some e)
  | .ok (n, hasPlus) =>
    if n = 0 ∧ hasPlus = false then (s, none) else (unescapeBuild s, none)

end url

/-! ## `explorer.go`: path translation -/

/-- Source `trimSuffix` (explorer.go:98): remove suffix in a string. -/
def trimSuffix (s suffix : GoString) : GoString :=
  if strings.HasSuffix s suffix then s.take (s.length - suffix.length) else s

/-- Source `convertPathToURL` (explorer.go:107): convert filepath to a url. -/
def convertPathToURL (windows : Bool) (src : GoString) : GoString :=
  let path := src
  let path :=
    if windows then
      let path := strings.Replace path (str ":") (str "") 1
      strings.Replace path (str "\\") (str "/") (-1)
    else path
  url.QueryEscape path

/-- The drive letters of `convertUrlToPath`: `[]string{"c", "d", "e", "f"}`. -/
def drives : List GoString := [str "c", str "d", str "e", str "f"]

/-- Source `convertUrlToPath` (explorer.go:121): convert a given url to file path.  The
second component is the returned `error` (`none` for `nil`).  The statement
`trimSuffix(path, "/")` of the source does not assign its result, so `path` is unchanged
by it. -/
def convertUrlToPath (windows : Bool) (src : GoString) : GoString × Option GoString :=
  let path := src
  -- remove "browse" prefix
  let path := strings.Replace path (str "/browse") (str "") 1
  -- unescape query string
  let path := (url.QueryUnescape path).1
  -- remove trailing slash
  let _ := trimSuffix path (str "/")
  -- if on windows machine fix drive letters with colon
  -- and convert forward slashes to backward slashes
  let path :=
    if windows then
      let path := drives.foldl
        (fun path d =>
          if strings.HasPrefix path (str "/" ++ d) then
            strings.Replace path (str "/" ++ d) (d ++ str ":") 1
          else path)
        path
      strings.Replace path (str "/") (str "\\") (-1)
    else path
  (path, none)

/-! ## Package `path/filepath` (forward-slash platforms)

On these platforms the volume name is empty, `os.IsPathSeparator(c)` is `c == '/'` and
`FromSlash` is the identity. -/

namespace filepath

/-- Go `filepath.lazybuf`, by its contents: `buf` holds the bytes written and `w` is the
index of the next byte to write.  (The Go type avoids allocating `buf` for as long as the
output is a prefix of the input; the bytes it denotes are the same.) -/
structure lazybuf where
  buf : List Byte
  w : Nat
deriving DecidableEq, Repr

/-- Go `lazybuf.index`. -/
def lazybuf.index (b : lazybuf) (i : Nat) : Byte := b.buf.getD i 0

/-- Go `lazybuf.append`: `b.buf[b.w] = c; b.w++`. -/
def lazybuf.append (b : lazybuf) (c : Byte) : lazybuf :=
  { buf := b.buf.take b.w ++ [c], w := b.w + 1 }

/-- Go `lazybuf.string`: `string(b.buf[:b.w])`. -/
def lazybuf.string (b : lazybuf) : GoString := b.buf.take b.w

/-- The inner loop of the `..` case of `Clean`:
`for out.w > dotdot && !os.IsPathSeparator(out.index(out.w)) { out.w-- }`,
as a function of `out.w`. -/
def backtrack (out : lazybuf) (dotdot : Nat) : Nat → Nat
  | 0 => 0
  | w + 1 =>
    if w + 1 > dotdot ∧ out.index (w + 1) ≠ 47 then backtrack out dotdot w else w + 1

/-- The inner loop of the default case of `Clean`, on the text `path[r:]`:
`for ; r < n && !os.IsPathSeparator(path[r]); r++ { out.append(path[r]) }`.
Returns the text left and the buffer. -/
def copyElement : GoString → lazybuf → GoString × lazybuf
  | [], out => ([], out)
  | c :: rest, out =>
    if c = 47 then (c :: rest, out) else copyElement rest (out.append c)

/-- The main loop `for r < n { switch { ... } }` of `Clean`, on the text `path[r:]` still
to process.  Every round consumes at least one byte, so `n - r` rounds are enough. -/
def cleanLoop (rooted : Bool) : Nat → GoString → lazybuf → Nat → lazybuf
  | 0, _, out, _ => out
  | _ + 1, [], out, _ => out
  | fuel + 1, c :: rest, out, dotdot =>
    if c = 47 then
      -- empty path element
      cleanLoop rooted fuel rest out dotdot
    else if c = 46 ∧ (rest = [] ∨ rest.head? = some 47) then
      -- . element
      cleanLoop rooted fuel rest out dotdot
    else if c = 46 ∧ rest.head? = some 46 ∧
        (rest.tail = [] ∨ rest.tail.head? = some 47) then
      -- .. element: remove to last separator
      if out.w > dotdot then
        -- can backtrack
        let out := { out with w := out.w - 1 }
        let out := { out with w := backtrack out dotdot out.w }
        cleanLoop rooted fuel rest.tail out dotdot
      else if !rooted then
        -- cannot backtrack, but not rooted, so append .. element.
        let out := if out.w > 0 then out.append 47 else out
        let out := (out.append 46).append 46
        cleanLoop rooted fuel rest.tail out out.w
      else cleanLoop rooted fuel rest.tail out dotdot
    else
      -- real path element. add slash if needed
      let out :=
        if (rooted && out.w != 1) || (!rooted && out.w != 0) then out.append 47 else out
      -- copy element
      let (rest, out) := copyElement (c :: rest) out
      cleanLoop rooted fuel rest out dotdot

/-- Go `filepath.Clean` (Unix): the shortest path name equivalent to `path` by purely
lexical processing. -/
def Clean (path : GoString) : GoString :=
  if path = [] then str "."
  else
    let rooted := path.head? == some 47
    let out : lazybuf := { buf := [], w := 0 }
    let (out, rest, dotdot) :=
      if rooted then (out.append 47, path.drop 1, 1) else (out, path, 0)
    let out := cleanLoop rooted rest.length rest out dotdot
    -- Turn empty string into "."
    let out := if out.w = 0 then out.append 46 else out
    out.string

/-- The scan of `Dir`: `i := len(path) - 1; for i >= 0 && !os.IsPathSeparator(path[i])
{ i-- }`, as a function of `i + 1`, returning the final `i + 1`. -/
def dirScan (path : GoString) : Nat → Nat
  | 0 => 0
  | i + 1 => if path.getD i 0 ≠ 47 then dirScan path i else i + 1

/-- Go `filepath.Dir` (Unix): all but the last element of `path`, cleaned:
`Clean(path[:i+1])`. -/
def Dir (path : GoString) : GoString :=
  Clean (path.take (dirScan path path.length))

end filepath

/-! ### Invariants of the output buffer of `Clean` on a rooted path -/

namespace filepath

/-- The buffer holds a leading separator, `w` is within the bytes written, and no
separator among the first `w` bytes directly follows another one. -/
def lazybuf.Separated (out : lazybuf) : Prop :=
  1 ≤ out.w ∧ out.w ≤ out.buf.length ∧ out.buf.getD 0 0 = 47 ∧
  ∀ i, 1 ≤ i → i < out.w → out.buf.getD i 0 = 47 → out.buf.getD (i - 1) 0 ≠ 47

/-- The buffer is `Separated` and, unless it is the root alone, does not end with a
separator. -/
def lazybuf.Cleaned (out : lazybuf) : Prop :=
  out.Separated ∧ (1 < out.w → out.buf.getD (out.w - 1) 0 ≠ 47)

end filepath

/-! ## `explorer.go`: page model and request handling -/

/-- Source `ItemViewModel` (explorer.go:54): struct to hold file/folder data. -/
structure ItemViewModel where
  Name : GoString
  Url : GoString
  IsDir : Bool
deriving DecidableEq, Repr

/-- Source `PageViewModel` (explorer.go:61): struct to hold page data. -/
structure PageViewModel where
  Items : List ItemViewModel
deriving DecidableEq, Repr

/-- What the program reads of an `os.FileInfo`: `Name()` and `IsDir()`. -/
structure FileInfo where
  Name : GoString
  IsDir : Bool
deriving DecidableEq, Repr

/-- The platform the program runs on: whether `runtime.GOOS == "windows"`, and the
`filepath.Dir` of that platform. -/
structure Platform where
  windows : Bool
  Dir : GoString → GoString

/-- A forward-slash platform. -/
def unix : Platform := { windows := false, Dir := filepath.Dir }

/-- The parent-directory item of `writeTemplate` (explorer.go:73-74) for `prevPath`. -/
def prevDirItem (pf : Platform) (prevPath : GoString) : ItemViewModel :=
  let prevDirHref := str "/browse/" ++ convertPathToURL pf.windows prevPath
  { Name := str ".. Go Up", IsDir := true, Url := prevDirHref }

/-- The item of `writeTemplate` (explorer.go:80-81) for the directory entry `f`. -/
def fileItem (src : GoString) (f : FileInfo) : ItemViewModel :=
  let href := src ++ str "/" ++ url.QueryEscape f.Name
  { Name := f.Name, IsDir := f.IsDir, Url := href }

/-- Source `writeTemplate` (explorer.go:66-83), the statements that build
`pageViewModel` from the request path `src`, the file path `path` and the listing. -/
def buildPageViewModel (pf : Platform) (src path : GoString) (files : List FileInfo) :
    PageViewModel :=
  let items : List ItemViewModel := []
  -- add up directory item
  let prevPath := trimSuffix (pf.Dir path) (str ".")
  let items := if prevPath ≠ path then items ++ [prevDirItem pf prevPath] else items
  -- add current directory items
  let items := files.foldl (fun items f => items ++ [fileItem src f]) items
  { Items := items }

/-- What a request has produced: the response header set through `w.Header()`, the
bytes written to `w`, and the lines printed through `log.Print`. -/
structure Response where
  header : List (GoString × GoString)
  body : GoString
  log : List GoString
deriving DecidableEq, Repr

/-- The state before the handler runs. -/
def Response.empty : Response := { header := [], body := [], log := [] }

/-- Source `writeError` (explorer.go:150): write error message. -/
def writeError (w : Response) (message : GoString) : Response :=
  { w with log := w.log ++ [message], body := w.body ++ message }

/-- Source `writeTemplate` (explorer.go:66).  `execute` stands for parsing `pageTemplate`
and executing it on the page model: it gives the bytes the execution wrote to `w` and
whether it ended in an error. -/
def writeTemplate (pf : Platform) (execute : PageViewModel → GoString × Bool)
    (w : Response) (src path : GoString) (files : List FileInfo) : Response :=
  let pageViewModel := buildPageViewModel pf src path files
  -- execute html template
  let (out, failed) := execute pageViewModel
  let w := { w with body := w.body ++ out }
  -- write error if template generation fails
  if failed then writeError w (str "Internal Error") else w

/-- Source `browseHandler` (explorer.go:156): handle the /browse route for the request
path `src` (`r.URL.Path`).  `readDir` stands for `ioutil.ReadDir`, `none` being a non-nil
error. -/
def browseHandler (pf : Platform) (readDir : GoString → Option (List FileInfo))
    (execute : PageViewModel → GoString × Bool) (w : Response) (src : GoString) :
    Response :=
  let (path, err) := convertUrlToPath pf.windows src
  match err with
  | some _ => writeError w (str "Invalid Path")
  | none =>
    match readDir path with
    | none => writeError w (str "Not Found : " ++ path)
    | some files =>
      let w := { w with
        header := (str "Content-Type", str "text/html") ::
          w.header.filter (fun kv => kv.1 ≠ str "Content-Type") }
      writeTemplate pf execute w src path files

/-! ## Package `html/template`: the escapers of the page template

The actions of `pageTemplate` stand in two contexts: `{{ .Name }}` in HTML text, where
`html/template` adds the escaper `htmlEscaper`, and `{{ .Url }}` in the single-quoted URL
attribute `href`, where it adds `urlFilter`, `urlNormalizer` and `attrEscaper`.  The
values are plain strings. -/

namespace template

/-- Go `htmlReplacementTable`: the replacement of a byte below `len(table)`, if any. -/
def htmlReplacementTable (c : Byte) : Option GoString :=
  if c = 0 then some (str "\uFFFD")
  else if c = 34 then some (str "&#34;")
  else if c = 38 then some (str "&amp;")
  else if c = 39 then some (str "&#39;")
  else if c = 43 then some (str "&#43;")
  else if c = 60 then some (str "&lt;")
  else if c = 62 then some (str "&gt;")
  else none

/-- Go `htmlReplacer(s, htmlReplacementTable, true)`: every rune that has a replacement
in the table is replaced, the other runes are copied.  The table ends at `>`, so a rune
with a replacement is a single ASCII byte and the bytes of all other runes (also of
invalid UTF-8) are copied one by one. -/
def htmlReplacer (s : GoString) : GoString :=
  s.flatMap (fun c => (htmlReplacementTable c).getD [c])

/-- Go `htmlEscaper` on a plain string. -/
def htmlEscaper (s : GoString) : GoString := htmlReplacer s

/-- Go `attrEscaper` on a plain string. -/
def attrEscaper (s : GoString) : GoString := htmlReplacer s

/-- One rune of `s` that `strings.EqualFold` takes for the lower-case ASCII letter `t`:
`t` itself, its upper-case form, and the two runes whose simple case folding leads to
an ASCII letter, U+017F (long s) for `s` and U+212A (Kelvin sign) for `k`.  Returns the
text after that rune. -/
def foldsTo (t : Byte) (s : GoString) : Option GoString :=
  match s with
  | [] => none
  | c :: rest =>
    if c = t ∨ c + 32 = t then some rest
    else if t = 115 ∧ c = 197 ∧ rest.head? = some 191 then some rest.tail
    else if t = 107 ∧ c = 226 ∧ rest.take 2 = [132, 170] then some (rest.drop 2)
    else none

/-- Go `strings.EqualFold(s, t)` for a `t` of lower-case ASCII letters: equality under
simple Unicode case folding. -/
def EqualFold (s : GoString) : GoString → Bool
  | [] => s.isEmpty
  | t :: ts =>
    match foldsTo t s with
    | none => false
    | some rest => EqualFold rest ts

/-- Go `isSafeURL`: a URL with a protocol (the text before the first `:`, when it holds
no `/`) is safe if the protocol is `http`, `https` or `mailto`. -/
def isSafeURL (s : GoString) : Bool :=
  match strings.Index s (str ":") with
  | none => true
  | some i =>
    let protocol := s.take i
    if strings.Index protocol (str "/") = none then
      EqualFold protocol (str "http") || EqualFold protocol (str "https") ||
        EqualFold protocol (str "mailto")
    else true

/-- Go `urlFilter` on a plain string: an unsafe URL is replaced by `#ZgotmplZ`. -/
def urlFilter (s : GoString) : GoString :=
  if isSafeURL s then s else str "#ZgotmplZ"

/-- Go `isHex` of `html/template`. -/
def isHex (c : Byte) : Bool :=
  (48 ≤ c && c ≤ 57) || (97 ≤ c && c ≤ 102) || (65 ≤ c && c ≤ 70)

/-- The bytes that `processURLOnto` with `norm` set copies whatever follows them:
`!#$&*+,/:;=?@[]`, the marks `-._~`, letters and digits. -/
def urlKept (c : Byte) : Bool :=
  c == 33 || c == 35 || c == 36 || c == 38 || c == 42 || c == 43 || c == 44 || c == 47 ||
    c == 58 || c == 59 || c == 61 || c == 63 || c == 64 || c == 91 || c == 93 ||
    c == 45 || c == 46 || c == 95 || c == 126 ||
    (97 ≤ c && c ≤ 122) || (65 ≤ c && c ≤ 90) || (48 ≤ c && c ≤ 57)

/-- The table of the lower-case hex digits of `%02x`. -/
def lowerhex (i : Byte) : Byte :=
  (str "0123456789abcdef").getD i.val 0

/-- Go `processURLOnto(s, true, b)`: a kept byte and a `%` followed by two hex digits are
copied, any other byte `c` is written as `%` and its two lower-case hex digits. -/
def processURLOnto : GoString → GoString
  | [] => []
  | c :: rest =>
    if urlKept c ∨ (c = 37 ∧ 2 ≤ rest.length ∧ isHex (rest.getD 0 0) ∧ isHex (rest.getD 1 0))
    then c :: processURLOnto rest
    else 37 :: lowerhex (c >>> 4) :: lowerhex (c &&& 15) :: processURLOnto rest

/-- Go `urlNormalizer` on a plain string. -/
def urlNormalizer (s : GoString) : GoString := processURLOnto s

end template

/-! ## `explorer.go`: the page template

The constant `pageTemplate` (explorer.go:17-51) as the function that its execution
computes: the text between the actions is written as it stands, `{{range .Items}}` runs
its body once per item, or its `{{else}}` part when there is no item, and `{{if .IsDir}}`
chooses between the two blocks. -/

/-- The text before `{{range .Items}}`. -/
def pageHead : GoString :=
  str "\n<DOCTYPE html>\n<html>\n\t<head>\n\t<title>Remote file explorer</title>\n\t<style>\n\ta \x7b\n\t\ttext-decoration: none;\n\t\x7d\n\tbody \x7b\n\t\tfont-family: verdana;\n\t\tfont-size: 14px;\n\t\tpadding-left: 10px\"\n\t\x7d\n\t</style>\n\t</head>\n\t<body>\n\t\t"

/-- The text after the `{{end}}` of the range. -/
def pageTail : GoString := str "\n\t</body>\n</html>\n"

/-- The `{{else}}` part of the range: the placeholder block. -/
def pagePlaceholder : GoString :=
  str "\n\t\t<div>\n\t\t<span>No items found.</span>\n\t\t</div>\n\t\t"

/-- The body of `{{range .Items}}` executed on one item. -/
def executeItem (item : ItemViewModel) : GoString :=
  str "\n\t\t" ++
  (if item.IsDir then
    str "\n\t\t<div class=\"directory\">\n\t\t<a href='" ++
    template.attrEscaper (template.urlNormalizer (template.urlFilter item.Url)) ++
    str "'>" ++
    template.htmlEscaper item.Name ++
    str "</a>\n\t\t</div>\n\t\t"
  else
    str "\n\t\t<div class=\"file\">\t\t\n\t\t<span>" ++
    template.htmlEscaper item.Name ++
    str "</span>\n\t\t</div>\n\t\t") ++
  str "\n\t\t"

/-- The bytes that executing `pageTemplate` on a page model writes. -/
def executePage (page : PageViewModel) : GoString :=
  pageHead ++
  (if page.Items = [] then pagePlaceholder else page.Items.flatMap executeItem) ++
  pageTail

/-- Parsing `pageTemplate` and executing it on a page model, as `writeTemplate` does
(explorer.go:86-89), on a writer that accepts every byte: the bytes written, and no
error. -/
def executePageTemplate (page : PageViewModel) : GoString × Bool :=
  (executePage page, false)

/-! ## Occurrences of a text -/

/-- The number of positions of `s` at which the text `p` begins. -/
def occurrences (p : GoString) : GoString → Nat
  | [] => 0
  | c :: rest => (if strings.HasPrefix (c :: rest) p then 1 else 0) + occurrences p rest

/-- No proper non-empty prefix of `p` is a suffix of `t`: an occurrence of `p` cannot
begin in `t` and end behind it. -/
def closedFor (p t : GoString) : Bool :=
  (List.range p.length).all
    (fun k => k == 0 || decide (t.length < k) || t.drop (t.length - k) != p.take k)

/-! ## Lemmas: `strings` -/

open strings url

theorem hasPrefix_append (old r : GoString) : HasPrefix (old ++ r) old = true := by
  simp [HasPrefix]

theorem index_append (old r : GoString) (h : old ≠ []) : Index (old ++ r) old = some 0 := by
  cases old with
  | nil => exact absurd rfl h
  | cons c t =>
    have := hasPrefix_append (c :: t) r
    simp only [List.cons_append] at this
    simp [Index, indexFrom, this]

theorem countLoop_ge (substr : GoString) : ∀ (fuel : Nat) (s : GoString) (n : Nat),
    n ≤ countLoop substr fuel s n := by
  intro fuel
  induction fuel with
  | zero => intro s n; simp [countLoop]
  | succ k ih =>
    intro s n
    simp only [countLoop]
    cases Index s substr with
    | none => simp
    | some i => exact Nat.le_trans (Nat.le_succ n) (ih _ _)

theorem count_append_pos (old r : GoString) (h : old ≠ []) : Count (old ++ r) old ≠ 0 := by
  simp only [Count, h, if_false, countLoop, index_append old r h]
  have := countLoop_ge old (old ++ r).length (List.drop (0 + old.length) (old ++ r)) (0 + 1)
  omega

/-- Removing the first instance of a non-empty `old` from `old ++ r` leaves `r`. -/
theorem replace_prefix (old r : GoString) (h : old ≠ []) :
    Replace (old ++ r) old [] 1 = r := by
  have hc := count_append_pos old r h
  have h1 : ¬ (old = [] ∨ (1 : Int) = 0) := by simp [h]
  have h2 : ¬ ((1 : Int) < 0 ∨ ((Count (old ++ r) old : Nat) : Int) < 1) := by omega
  simp only [Replace, h1, if_false, hc, h2]
  simp [replaceLoop, index_append old r h]

/-! ## Lemmas: `net/url` -/

set_option maxRecDepth 100000 in
theorem unhex_upperhex : ∀ c : Byte,
    ((unhex (upperhex (c >>> 4)) <<< 4) ||| unhex (upperhex (c &&& 15))) = c := by decide

set_option maxRecDepth 100000 in
theorem ishex_upperhex : ∀ c : Byte,
    ishex (upperhex (c >>> 4)) = true ∧ ishex (upperhex (c &&& 15)) = true := by decide

set_option maxRecDepth 100000 in
theorem not_shouldEscape : ∀ c : Byte,
    shouldEscape c = false → c ≠ 37 ∧ c ≠ 43 ∧ c ≠ 32 := by decide


theorem unescapeScan_plus (x : GoString) (n : Nat) (hp : Bool) :
    unescapeScan (43 :: x) n hp = unescapeScan x n true := by
  rw [unescapeScan.eq_def]; simp

theorem unescapeScan_plain (c : Byte) (h1 : c ≠ 37) (h2 : c ≠ 43) (x : GoString) (n : Nat)
    (hp : Bool) : unescapeScan (c :: x) n hp = unescapeScan x n hp := by
  rw [unescapeScan.eq_def]; simp [h1, h2]

theorem unescapeScan_hex (a b : Byte) (h1 : ishex a = true) (h2 : ishex b = true)
    (x : GoString) (n : Nat) (hp : Bool) :
    unescapeScan (37 :: a :: b :: x) n hp = unescapeScan x (n + 1) hp := by
  rw [unescapeScan.eq_def]; simp [h1, h2]

theorem unescapeBuild_plus (x : GoString) : unescapeBuild (43 :: x) = 32 :: unescapeBuild x := by
  rw [unescapeBuild.eq_def]; simp

theorem unescapeBuild_plain (c : Byte) (h1 : c ≠ 37) (h2 : c ≠ 43) (x : GoString) :
    unescapeBuild (c :: x) = c :: unescapeBuild x := by
  rw [unescapeBuild.eq_def]; simp [h1, h2]

theorem unescapeBuild_hex (a b : Byte) (x : GoString) :
    unescapeBuild (37 :: a :: b :: x) = ((unhex a <<< 4) ||| unhex b) :: unescapeBuild x := by
  rw [unescapeBuild.eq_def]; simp

theorem escapeCount_mono : ∀ (s : GoString) (a b : Nat),
    a ≤ (escapeCount s a b).1 ∧ b ≤ (escapeCount s a b).2 := by
  intro s
  induction s with
  | nil => intro a b; simp [escapeCount]
  | cons c rest ih =>
    intro a b
    simp only [escapeCount]
    split
    · split
      · have := ih (a + 1) b; omega
      · have := ih a (b + 1); omega
    · exact ih a b

theorem escapeBuild_of_count_zero : ∀ (s : GoString) (a b : Nat),
    escapeCount s a b = (0, 0) → escapeBuild s = s := by
  intro s
  induction s with
  | nil => intro a b _; rfl
  | cons c rest ih =>
    intro a b h
    simp only [escapeCount] at h
    by_cases hs : shouldEscape c = true
    · simp only [hs, if_true] at h
      split at h
      · have := (escapeCount_mono rest (a + 1) b).1; rw [h] at this; simp at this
      · have := (escapeCount_mono rest a (b + 1)).2; rw [h] at this; simp at this
    · simp only [hs] at h
      have hs2 : shouldEscape c = false := by simpa using hs
      have h32 := (not_shouldEscape c hs2).2.2
      simp only [escapeBuild, h32, if_false, hs2, ih a b (by simpa using h)]
      simp

/-- The early return of `url.escape` agrees with its second loop. -/
theorem queryEscape_eq (s : GoString) : QueryEscape s = escapeBuild s := by
  unfold QueryEscape
  generalize hp : escapeCount s 0 0 = p
  obtain ⟨x, y⟩ := p
  simp only
  split
  · rename_i h
    obtain ⟨hx, hy⟩ := h
    subst hx; subst hy
    exact (escapeBuild_of_count_zero s 0 0 hp).symm
  · rfl

theorem unescapeScan_escapeBuild : ∀ (s : GoString) (n : Nat) (hp : Bool),
    ∃ p, unescapeScan (escapeBuild s) n hp = .ok p := by
  intro s
  induction s with
  | nil => intro n hp; exact ⟨_, rfl⟩
  | cons c rest ih =>
    intro n hp
    by_cases h32 : c = 32
    · simp only [escapeBuild, h32, if_true]
      rw [unescapeScan_plus]; exact ih n true
    · by_cases hs : shouldEscape c = true
      · simp only [escapeBuild, h32, if_false, hs, if_true]
        have hh := ishex_upperhex c
        rw [unescapeScan_hex _ _ hh.1 hh.2]; exact ih (n + 1) hp
      · have hs2 : shouldEscape c = false := by simpa using hs
        have hne := not_shouldEscape c hs2
        simp only [escapeBuild, h32, if_false, hs2, Bool.false_eq_true]
        rw [unescapeScan_plain c hne.1 hne.2.1]; exact ih n hp

theorem unescapeBuild_escapeBuild : ∀ (s : GoString), unescapeBuild (escapeBuild s) = s := by
  intro s
  induction s with
  | nil => rfl
  | cons c rest ih =>
    by_cases h32 : c = 32
    · simp only [escapeBuild, h32, if_true]
      rw [unescapeBuild_plus, ih]
    · by_cases hs : shouldEscape c = true
      · simp only [escapeBuild, h32, if_false, hs, if_true]
        rw [unescapeBuild_hex, ih, unhex_upperhex c]
      · have hs2 : shouldEscape c = false := by simpa using hs
        have hne := not_shouldEscape c hs2
        simp only [escapeBuild, h32, if_false, hs2, Bool.false_eq_true]
        rw [unescapeBuild_plain c hne.1 hne.2.1, ih]

theorem unescapeScan_mono : ∀ (k : Nat) (s : GoString), s.length ≤ k → ∀ (n : Nat) (hp : Bool)
    (p : Nat × Bool), unescapeScan s n hp = .ok p → n ≤ p.1 ∧ (hp = true → p.2 = true) := by
  intro k
  induction k with
  | zero =>
    intro s hs n hp p h
    have : s = [] := List.length_eq_zero.mp (Nat.le_zero.mp hs)
    subst this
    simp only [unescapeScan, Except.ok.injEq] at h
    subst h; simp
  | succ k ih =>
    intro s hs n hp p h
    cases s with
    | nil =>
      simp only [unescapeScan, Except.ok.injEq] at h
      subst h; simp
    | cons c rest =>
      by_cases h37 : c = 37
      · subst h37
        match rest, hs, h with
        | [], _, h => rw [unescapeScan.eq_def] at h; simp at h
        | [_], _, h => rw [unescapeScan.eq_def] at h; simp at h
        | a :: b :: rest2, hs, h =>
          rw [unescapeScan.eq_def] at h
          simp only [if_true] at h
          split at h
          · have := ih rest2 (by simp at hs; omega) (n + 1) hp p h
            exact ⟨by omega, this.2⟩
          · simp at h
      · by_cases h43 : c = 43
        · subst h43
          rw [unescapeScan_plus] at h
          have := ih rest (by simp at hs; omega) n true p h
          exact ⟨this.1, fun _ => this.2 rfl⟩
        · rw [unescapeScan_plain c h37 h43] at h
          exact ih rest (by simp at hs; omega) n hp p h

theorem unescapeBuild_of_scan_zero : ∀ (k : Nat) (s : GoString), s.length ≤ k → ∀ (n : Nat)
    (hp : Bool), unescapeScan s n hp = .ok (0, false) → unescapeBuild s = s := by
  intro k
  induction k with
  | zero =>
    intro s hs n hp _
    have : s = [] := List.length_eq_zero.mp (Nat.le_zero.mp hs)
    subst this; rfl
  | succ k ih =>
    intro s hs n hp h
    cases s with
    | nil => rfl
    | cons c rest =>
      by_cases h37 : c = 37
      · subst h37
        match rest, hs, h with
        | [], _, h => rw [unescapeScan.eq_def] at h; simp at h
        | [_], _, h => rw [unescapeScan.eq_def] at h; simp at h
        | a :: b :: rest2, hs, h =>
          rw [unescapeScan.eq_def] at h
          simp only [if_true] at h
          split at h
          · have := (unescapeScan_mono _ rest2 (Nat.le_refl _) (n + 1) hp _ h).1
            simp at this
          · simp at h
      · by_cases h43 : c = 43
        · subst h43
          rw [unescapeScan_plus] at h
          have := (unescapeScan_mono _ rest (Nat.le_refl _) n true _ h).2 rfl
          simp at this
        · rw [unescapeScan_plain c h37 h43] at h
          rw [unescapeBuild_plain c h37 h43, ih rest (by simp at hs; omega) n hp h]

/-- When the first loop of `url.unescape` accepts `s`, the result is what the second loop
builds (the early return for a text without `%` and `+` included). -/
theorem queryUnescape_of_scan_ok (s : GoString) (p : Nat × Bool)
    (h : unescapeScan s 0 false = .ok p) : QueryUnescape s = (unescapeBuild s, none) := by
  unfold QueryUnescape
  rw [h]
  obtain ⟨n, hp⟩ := p
  simp only
  split
  · rename_i hz
    obtain ⟨h1, h2⟩ := hz
    subst h1; subst h2
    rw [unescapeBuild_of_scan_zero _ s (Nat.le_refl _) 0 false h]
  · rfl

/-- Decoding what `url.QueryEscape` produced gives the text back, without error. -/
theorem queryUnescape_queryEscape (s : GoString) :
    QueryUnescape (QueryEscape s) = (s, none) := by
  rw [queryEscape_eq]
  obtain ⟨p, hp⟩ := unescapeScan_escapeBuild s 0 false
  rw [queryUnescape_of_scan_ok _ p hp, unescapeBuild_escapeBuild]

/-! ## Lemmas: `convertUrlToPath` -/

theorem convertUrlToPath_unix (src : GoString) :
    convertUrlToPath false src =
      ((QueryUnescape (Replace src (str "/browse") (str "") 1)).1, none) := by
  simp [convertUrlToPath]

theorem convertUrlToPath_browse (r : GoString) :
    convertUrlToPath false (str "/browse" ++ r) = ((QueryUnescape r).1, none) := by
  rw [convertUrlToPath_unix]
  have h : str "" = ([] : GoString) := by decide
  rw [h, replace_prefix _ r (by decide)]

theorem clean_double_slash (t : GoString) :
    filepath.Clean (47 :: 47 :: t) = filepath.Clean (47 :: t) := by
  simp [filepath.Clean, filepath.cleanLoop]

/-! ## Lemmas: page model -/

theorem foldl_fileItem (src : GoString) : ∀ (files : List FileInfo) (init : List ItemViewModel),
    files.foldl (fun items f => items ++ [fileItem src f]) init =
      init ++ files.map (fileItem src) := by
  intro files
  induction files with
  | nil => intro init; simp
  | cons f rest ih => intro init; simp [List.foldl_cons, ih]

theorem buildPageViewModel_items (pf : Platform) (src path : GoString)
    (files : List FileInfo) :
    (buildPageViewModel pf src path files).Items =
      (if trimSuffix (pf.Dir path) (str ".") ≠ path
        then [prevDirItem pf (trimSuffix (pf.Dir path) (str "."))] else []) ++
      files.map (fileItem src) := by
  simp only [buildPageViewModel, foldl_fileItem, List.nil_append]

set_option maxRecDepth 100000 in
theorem queryEscapedByte_upperhex : ∀ c : Byte,
    queryEscapedByte (upperhex (c >>> 4)) = true ∧
    queryEscapedByte (upperhex (c &&& 15)) = true := by decide

set_option maxRecDepth 100000 in
theorem queryEscapedByte_of_not_shouldEscape : ∀ c : Byte,
    shouldEscape c = false → queryEscapedByte c = true := by decide

theorem queryEscapedByte_escapeBuild : ∀ (s : GoString) (b : Byte),
    b ∈ escapeBuild s → queryEscapedByte b = true := by
  intro s
  induction s with
  | nil => intro b hb; simp [escapeBuild] at hb
  | cons c rest ih =>
    intro b hb
    by_cases h32 : c = 32
    · simp only [escapeBuild, h32, if_true, List.mem_cons] at hb
      rcases hb with hb | hb
      · subst hb; decide
      · exact ih b hb
    · by_cases hs : shouldEscape c = true
      · simp only [escapeBuild, h32, if_false, hs, if_true, List.mem_cons] at hb
        have hh := queryEscapedByte_upperhex c
        rcases hb with hb | hb | hb | hb
        · subst hb; decide
        · subst hb; exact hh.1
        · subst hb; exact hh.2
        · exact ih b hb
      · have hs2 : shouldEscape c = false := by simpa using hs
        simp only [escapeBuild, h32, if_false, hs2, Bool.false_eq_true, List.mem_cons] at hb
        rcases hb with hb | hb
        · subst hb; exact queryEscapedByte_of_not_shouldEscape _ hs2
        · exact ih b hb

/-! ## Lemmas: `filepath.Clean` on rooted paths -/

namespace filepath

theorem append_w (out : lazybuf) (c : Byte) : (out.append c).w = out.w + 1 := rfl

theorem append_length (out : lazybuf) (c : Byte) (h : out.w ≤ out.buf.length) :
    (out.append c).buf.length = out.w + 1 := by
  simp [lazybuf.append, Nat.min_eq_left h]

theorem append_getD_lt (out : lazybuf) (c : Byte) (i : Nat) (hi : i < out.w)
    (h : out.w ≤ out.buf.length) : (out.append c).buf.getD i 0 = out.buf.getD i 0 := by
  have h1 : i < (out.buf.take out.w).length := by simp [Nat.min_eq_left h, hi]
  simp only [lazybuf.append, List.getD_eq_getElem?_getD]
  rw [List.getElem?_append_left h1, List.getElem?_take_of_lt hi]

theorem append_getD_eq (out : lazybuf) (c : Byte) (h : out.w ≤ out.buf.length) :
    (out.append c).buf.getD out.w 0 = c := by
  have h1 : (out.buf.take out.w).length = out.w := by simp [Nat.min_eq_left h]
  simp only [lazybuf.append, List.getD_eq_getElem?_getD]
  rw [List.getElem?_append_right (by omega), h1]
  simp

/-- Appending a separator to a cleaned buffer that is not the root alone. -/
theorem separated_append_sep (out : lazybuf) (h : out.Cleaned) (hw : out.w ≠ 1) :
    (out.append 47).Separated := by
  obtain ⟨⟨h1, h2, h3, h4⟩, h5⟩ := h
  refine ⟨by rw [append_w]; omega, by rw [append_w, append_length _ _ h2], ?_, ?_⟩
  · rw [append_getD_lt _ _ 0 (by omega) h2]; exact h3
  · intro i hi1 hi2 hi3
    rw [append_w] at hi2
    rw [append_getD_lt _ _ (i - 1) (by omega) h2]
    by_cases hlt : i < out.w
    · rw [append_getD_lt _ _ i hlt h2] at hi3
      exact h4 i hi1 hlt hi3
    · have : i = out.w := by omega
      subst this
      exact h5 (by omega)

/-- Appending a byte of a path element. -/
theorem cleaned_append (out : lazybuf) (c : Byte) (h : out.Separated) (hc : c ≠ 47) :
    (out.append c).Cleaned := by
  obtain ⟨h1, h2, h3, h4⟩ := h
  refine ⟨⟨by rw [append_w]; omega, by rw [append_w, append_length _ _ h2], ?_, ?_⟩, ?_⟩
  · rw [append_getD_lt _ _ 0 (by omega) h2]; exact h3
  · intro i hi1 hi2 hi3
    rw [append_w] at hi2
    by_cases hlt : i < out.w
    · rw [append_getD_lt _ _ i hlt h2] at hi3
      rw [append_getD_lt _ _ (i - 1) (by omega) h2]
      exact h4 i hi1 hlt hi3
    · have : i = out.w := by omega
      subst this
      rw [append_getD_eq _ _ h2] at hi3
      exact absurd hi3 hc
  · intro _
    rw [append_w, Nat.add_sub_cancel, append_getD_eq _ _ h2]
    exact hc

theorem copyElement_sep (rest : GoString) (out : lazybuf) :
    copyElement (47 :: rest) out = (47 :: rest, out) := by
  simp [copyElement]

theorem copyElement_byte (c : Byte) (hc : c ≠ 47) (rest : GoString) (out : lazybuf) :
    copyElement (c :: rest) out = copyElement rest (out.append c) := by
  simp [copyElement, hc]

theorem copyElement_cleaned : ∀ (rest : GoString) (out : lazybuf), out.Cleaned →
    (copyElement rest out).2.Cleaned ∧
    (copyElement rest out).2.w + (copyElement rest out).1.length = out.w + rest.length ∧
    ((copyElement rest out).1 = [] ∨ (copyElement rest out).1.head? = some 47) := by
  intro rest
  induction rest with
  | nil => intro out h; exact ⟨h, rfl, Or.inl rfl⟩
  | cons c rest ih =>
    intro out h
    by_cases hc : c = 47
    · subst hc
      rw [copyElement_sep]
      exact ⟨h, rfl, Or.inr rfl⟩
    · rw [copyElement_byte c hc]
      obtain ⟨a, b, d⟩ := ih (out.append c) (cleaned_append out c h.1 hc)
      refine ⟨a, ?_, d⟩
      rw [b, append_w, List.length_cons]; omega

theorem backtrack_succ (out : lazybuf) (dotdot k : Nat) :
    backtrack out dotdot (k + 1) =
      if k + 1 > dotdot ∧ out.index (k + 1) ≠ 47 then backtrack out dotdot k else k + 1 := rfl

theorem backtrack_spec (out : lazybuf) : ∀ w : Nat, 1 ≤ w →
    1 ≤ backtrack out 1 w ∧ backtrack out 1 w ≤ w ∧
    (backtrack out 1 w = 1 ∨ out.buf.getD (backtrack out 1 w) 0 = 47) := by
  intro w
  induction w with
  | zero => intro h; omega
  | succ k ih =>
    intro _
    rw [backtrack_succ]
    by_cases hk : k + 1 > 1 ∧ out.index (k + 1) ≠ 47
    · rw [if_pos hk]
      obtain ⟨a, b, d⟩ := ih (by omega)
      exact ⟨a, by omega, d⟩
    · rw [if_neg hk]
      refine ⟨by omega, Nat.le_refl _, ?_⟩
      by_cases h1 : k + 1 > 1
      · right
        by_contra hne
        exact hk ⟨h1, hne⟩
      · left; omega

theorem cleaned_backtrack (out : lazybuf) (h : out.Cleaned) (hw : 1 < out.w) :
    ({ out with w := backtrack { out with w := out.w - 1 } 1 (out.w - 1) } : lazybuf).Cleaned ∧
    backtrack { out with w := out.w - 1 } 1 (out.w - 1) < out.w := by
  obtain ⟨⟨h1, h2, h3, h4⟩, h5⟩ := h
  obtain ⟨a, b, d⟩ := backtrack_spec { out with w := out.w - 1 } (out.w - 1) (by omega)
  simp only at d
  refine ⟨⟨⟨a, by simp only; omega, h3, ?_⟩, ?_⟩, by omega⟩
  · intro i hi1 hi2 hi3
    exact h4 i hi1 (by simp only at hi2; omega) hi3
  · intro hlt
    simp only at hlt ⊢
    rcases d with d | d
    · omega
    · exact h4 _ a (by omega) d

end filepath

namespace filepath

theorem cleanLoop_cleaned (N : Nat) : ∀ (fuel : Nat) (rest : GoString) (out : lazybuf),
    out.Cleaned → out.w + rest.length ≤ N →
    (out.w + rest.length = N → out.w = 1 ∨ rest = [] ∨ rest.head? = some 47) →
    (cleanLoop true fuel rest out 1).Cleaned ∧ (cleanLoop true fuel rest out 1).w ≤ N := by
  intro fuel
  induction fuel with
  | zero =>
    intro rest out h hN _
    simp only [cleanLoop]
    exact ⟨h, by omega⟩
  | succ fuel ih =>
    intro rest out h hN hJ
    cases rest with
    | nil =>
      simp only [cleanLoop]
      exact ⟨h, by simpa using hN⟩
    | cons c rest =>
      simp only [List.length_cons] at hN hJ
      rw [cleanLoop]
      simp only [Bool.not_true, Bool.false_eq_true, if_false, Bool.true_and, Bool.false_and,
        Bool.or_false]
      split_ifs with h1 h2 h3 h4 h6
      · exact ih rest out h (by omega) (fun e => by omega)
      · exact ih rest out h (by omega) (fun e => by omega)
      · obtain ⟨hc, hlt⟩ := cleaned_backtrack out h h4
        refine ih rest.tail _ hc ?_ (fun e => ?_)
        · have := List.length_tail rest; simp only at this ⊢; omega
        · have := List.length_tail rest; simp only at this e; omega
      · refine ih rest.tail out h ?_ (fun e => ?_)
        · have := List.length_tail rest; omega
        · have := List.length_tail rest; omega
      · -- a separator is added: the buffer is not the root alone
        have hw : out.w ≠ 1 := by simpa using h6
        have hsep := separated_append_sep out h hw
        have hstrict : out.w + (rest.length + 1) < N := by
          rcases Nat.lt_or_eq_of_le hN with hlt | heq
          · exact hlt
          · rcases hJ heq with a | a | a
            · exact absurd a hw
            · simp at a
            · simp only [List.head?_cons, Option.some.injEq] at a
              exact absurd a h1
        simp only [copyElement_byte c h1]
        have hcl := cleaned_append (out.append 47) c hsep h1
        obtain ⟨a, b, d⟩ := copyElement_cleaned rest ((out.append 47).append c) hcl
        generalize copyElement rest ((out.append 47).append c) = r at a b d
        obtain ⟨rest2, out2⟩ := r
        simp only at a b d ⊢
        simp only [append_w] at b
        exact ih rest2 out2 a (by omega) (fun _ => Or.inr d)
      · have hw : out.w = 1 := by simpa using h6
        simp only [copyElement_byte c h1]
        have hcl := cleaned_append out c h.1 h1
        obtain ⟨a, b, d⟩ := copyElement_cleaned rest (out.append c) hcl
        generalize copyElement rest (out.append c) = r at a b d
        obtain ⟨rest2, out2⟩ := r
        simp only at a b d ⊢
        simp only [append_w] at b
        exact ih rest2 out2 a (by omega) (fun _ => Or.inr d)

end filepath

namespace filepath

theorem clean_cons_sep (t : GoString) :
    Clean (47 :: t) =
      (cleanLoop true t.length t { buf := [47], w := 1 } 1).buf.take
        (cleanLoop true t.length t { buf := [47], w := 1 } 1).w ∨
    (cleanLoop true t.length t { buf := [47], w := 1 } 1).w = 0 := by
  by_cases h : (cleanLoop true t.length t { buf := [47], w := 1 } 1).w = 0
  · exact Or.inr h
  · left
    simp [Clean, lazybuf.append, lazybuf.string, h]

/-- On a rooted path `Clean` does not make the path longer, and its result is the root
alone or does not end with a separator. -/
theorem clean_rooted (t : GoString) :
    (Clean (47 :: t)).length ≤ t.length + 1 ∧
    (Clean (47 :: t) = [47] ∨
      (Clean (47 :: t)).getD ((Clean (47 :: t)).length - 1) 0 ≠ 47) := by
  have h0 : ({ buf := [47], w := 1 } : lazybuf).Cleaned := by
    refine ⟨⟨Nat.le_refl _, Nat.le_refl _, rfl, ?_⟩, ?_⟩
    · intro i h1 h2; simp only at h2; omega
    · intro h; simp only at h; omega
  obtain ⟨⟨⟨h1, h2, h3, h4⟩, h5⟩, h6⟩ :=
    cleanLoop_cleaned (t.length + 1) t.length t { buf := [47], w := 1 } h0 (by simp; omega)
      (fun _ => Or.inl rfl)
  rcases clean_cons_sep t with he | he
  · rw [he]
    generalize cleanLoop true t.length t { buf := [47], w := 1 } 1 = out at h1 h2 h3 h4 h5 h6
    have hlen : (out.buf.take out.w).length = out.w := by simp [Nat.min_eq_left h2]
    refine ⟨by rw [hlen]; exact h6, ?_⟩
    by_cases hw : out.w = 1
    · left
      rw [hw]
      cases hb : out.buf with
      | nil => rw [hb] at h2; simp at h2; omega
      | cons b bs =>
        rw [hb] at h3
        simp only [List.getD_cons_zero] at h3
        simp [h3]
    · right
      rw [hlen, List.getD_eq_getElem?_getD, List.getElem?_take_of_lt (by omega),
        ← List.getD_eq_getElem?_getD]
      exact h5 (by omega)
  · omega

theorem dirScan_le (path : GoString) : ∀ n : Nat, dirScan path n ≤ n := by
  intro n
  induction n with
  | zero => simp [dirScan]
  | succ k ih =>
    simp only [dirScan]
    split
    · omega
    · omega

theorem dirScan_sep (path : GoString) : ∀ n : Nat, 0 < dirScan path n →
    path.getD (dirScan path n - 1) 0 = 47 := by
  intro n
  induction n with
  | zero => simp [dirScan]
  | succ k ih =>
    simp only [dirScan]
    split
    · exact ih
    · rename_i h
      intro _
      simpa using h

theorem dirScan_pos (t : GoString) : ∀ n : Nat, 0 < n → 0 < dirScan (47 :: t) n := by
  intro n
  induction n with
  | zero => intro h; omega
  | succ k ih =>
    intro _
    simp only [dirScan]
    split
    · rename_i h
      cases k with
      | zero => simp at h
      | succ j => exact ih (by omega)
    · omega

end filepath

/-- On a forward-slash platform the parent item is left out exactly for the path `/`. -/
theorem trimSuffix_dir_eq_iff (path : GoString) (h : path.head? = some 47) :
    trimSuffix (filepath.Dir path) (str ".") = path ↔ path = str "/" := by
  have hs : str "/" = ([47] : GoString) := by decide
  have hd : str "." = ([46] : GoString) := by decide
  rw [hs, hd]
  constructor
  · intro heq
    cases path with
    | nil => simp at h
    | cons c t =>
      simp only [List.head?_cons, Option.some.injEq] at h
      subst h
      have hk1 := filepath.dirScan_le (47 :: t) (47 :: t).length
      have hk2 := filepath.dirScan_pos t (47 :: t).length (by simp)
      have hk3 := filepath.dirScan_sep (47 :: t) (47 :: t).length hk2
      generalize hk : filepath.dirScan (47 :: t) (47 :: t).length = k at hk1 hk2 hk3
      have hx : (47 :: t).take k = 47 :: t.take (k - 1) := by
        cases k with
        | zero => omega
        | succ j => simp
      have hcl := filepath.clean_rooted (t.take (k - 1))
      have hdir : filepath.Dir (47 :: t) = filepath.Clean (47 :: t.take (k - 1)) := by
        simp only [filepath.Dir, hk, hx]
      rw [hdir] at heq
      generalize filepath.Clean (47 :: t.take (k - 1)) = d at hcl heq
      obtain ⟨hlen, hlast⟩ := hcl
      simp only [List.length_take, List.length_cons] at hlen hk1
      simp only [trimSuffix] at heq
      split at heq
      · have := congrArg List.length heq
        simp only [List.length_take, List.length_cons, List.length_nil] at this
        rename_i hsuf
        simp only [strings.HasSuffix, List.length_cons, List.length_nil, ge_iff_le,
          Bool.and_eq_true, decide_eq_true_eq] at hsuf
        omega
      · subst heq
        simp only [List.length_cons] at hlen hlast hk3
        have hkk : k = t.length + 1 := by omega
        subst hkk
        rcases hlast with hl | hl
        · exact hl
        · simp only [Nat.add_sub_cancel] at hl hk3
          exact absurd hk3 hl
  · intro hp
    subst hp
    decide

/-! ## Lemmas: the bounded loops run to their end -/

theorem indexFrom_lt (substr : GoString) : ∀ (s : GoString) (i j : Nat),
    indexFrom substr s i = some j → substr ≠ [] → j < i + s.length := by
  intro s
  induction s with
  | nil =>
    intro i j h hne
    simp [indexFrom, hne] at h
  | cons c rest ih =>
    intro i j h hne
    simp only [indexFrom] at h
    split at h
    · simp only [Option.some.injEq] at h
      simp only [List.length_cons]; omega
    · have := ih (i + 1) j h hne
      simp only [List.length_cons]; omega

/-- The loop of `strings.Count` ends by itself within `len(s) + 1` rounds: more rounds
do not change its result. -/
theorem countLoop_fuel (substr : GoString) (hne : substr ≠ []) : ∀ (fuel1 fuel2 : Nat)
    (s : GoString) (n : Nat), s.length < fuel1 → s.length < fuel2 →
    countLoop substr fuel1 s n = countLoop substr fuel2 s n := by
  intro fuel1
  induction fuel1 with
  | zero => intro fuel2 s n h; omega
  | succ k ih =>
    intro fuel2 s n h1 h2
    cases fuel2 with
    | zero => omega
    | succ m =>
      simp only [countLoop]
      cases hi : Index s substr with
      | none => rfl
      | some i =>
        have hlt := indexFrom_lt substr s 0 i hi hne
        have hpos : 0 < substr.length := List.length_pos.mpr hne
        simp only
        apply ih
        · simp only [List.length_drop]; omega
        · simp only [List.length_drop]; omega

namespace filepath

theorem copyElement_length : ∀ (rest : GoString) (out : lazybuf),
    (copyElement rest out).1.length ≤ rest.length := by
  intro rest
  induction rest with
  | nil => intro out; simp [copyElement]
  | cons c rest ih =>
    intro out
    by_cases hc : c = 47
    · subst hc; rw [copyElement_sep]
    · rw [copyElement_byte c hc]
      have := ih (out.append c)
      simp only [List.length_cons]; omega

/-- The main loop of `Clean` ends by itself within `n - r` rounds: more rounds do not
change its result. -/
theorem cleanLoop_fuel (rooted : Bool) : ∀ (fuel1 fuel2 : Nat) (rest : GoString)
    (out : lazybuf) (dotdot : Nat), rest.length ≤ fuel1 → rest.length ≤ fuel2 →
    cleanLoop rooted fuel1 rest out dotdot = cleanLoop rooted fuel2 rest out dotdot := by
  intro fuel1
  induction fuel1 with
  | zero =>
    intro fuel2 rest out dotdot h1 _
    have : rest = [] := List.length_eq_zero.mp (Nat.le_zero.mp h1)
    subst this
    cases fuel2 <;> simp [cleanLoop]
  | succ k ih =>
    intro fuel2 rest out dotdot h1 h2
    cases rest with
    | nil => cases fuel2 <;> simp [cleanLoop]
    | cons c rest =>
      cases fuel2 with
      | zero => simp at h2
      | succ m =>
        simp only [List.length_cons] at h1 h2
        have ht := List.length_tail rest
        rw [cleanLoop, cleanLoop]
        split_ifs with h1 h2 h3 h4 h5 h6 h7
        · exact ih _ _ _ _ (by omega) (by omega)
        · exact ih _ _ _ _ (by omega) (by omega)
        · exact ih _ _ _ _ (by omega) (by omega)
        · exact ih _ _ _ _ (by omega) (by omega)
        · exact ih _ _ _ _ (by omega) (by omega)
        · exact ih _ _ _ _ (by omega) (by omega)
        · simp only [copyElement_byte c h1]
          have := copyElement_length rest ((out.append 47).append c)
          exact ih _ _ _ _ (by omega) (by omega)
        · simp only [copyElement_byte c h1]
          have := copyElement_length rest (out.append c)
          exact ih _ _ _ _ (by omega) (by omega)

end filepath

/-! ## The library model on cases of the test tables of the Go library -/

theorem clean_examples :
    [str "", str "abc", str "..", str "../../abc", str "/", str "abc/def/", str "../../",
     str "abc//def//ghi", str "//abc//", str "/./abc/def", str "abc/.",
     str "abc/def/ghi/../jkl", str "abc/def/../..", str "/abc/def/../..",
     str "abc/def/../../..", str "/abc/def/../../..",
     str "abc/def/../../../ghi/jkl/../../../mno", str "/../abc", str "abc//./../def",
     str "abc/../../././../def"].map filepath.Clean =
    [str ".", str "abc", str "..", str "../../abc", str "/", str "abc/def", str "../..",
     str "abc/def/ghi", str "/abc", str "/abc/def", str "abc",
     str "abc/def/jkl", str ".", str "/",
     str "..", str "/",
     str "../../mno", str "/abc", str "def",
     str "../../def"] := by
  decide

theorem dir_examples :
    [str "", str ".", str "/.", str "/", str "/foo", str "x/", str "abc", str "abc/def",
     str "a/b/.x", str "a/b/c.", str "a/b/c.x"].map filepath.Dir =
    [str ".", str ".", str "/", str "/", str "/", str "x", str ".", str "abc",
     str "a/b", str "a/b", str "a/b"] := by
  decide

theorem queryEscape_examples :
    [str "", str "abc", str "one two", str "10%", str " ?&=#+%!<>:/@$()*,;~-_."].map
      QueryEscape =
    [str "", str "abc", str "one+two", str "10%25",
     str "+%3F%26%3D%23%2B%25%21%3C%3E%3A%2F%40%24%28%29%2A%2C%3B~-_."] := by
  decide

theorem queryUnescape_examples :
    [str "", str "abc", str "1%41", str "1%41%42%43", str "%4a", str "a+b", str "a%20b",
     str "%", str "%a", str "%1", str "123%45%6", str "%zzzzz"].map QueryUnescape =
    [(str "", none), (str "abc", none), (str "1A", none), (str "1ABC", none),
     (str "J", none), (str "a b", none), (str "a b", none),
     (str "", some (str "%")), (str "", some (str "%a")), (str "", some (str "%1")),
     (str "", some (str "%6")), (str "", some (str "%zz"))] := by
  decide

theorem replace_examples :
    Replace (str "banana") (str "a") (str "<>") 1 = str "b<>nana" ∧
    Replace (str "banana") (str "a") (str "<>") (-1) = str "b<>n<>n<>" ∧
    Replace (str "banana") (str "an") (str "<>") (-1) = str "b<><>a" ∧
    Replace (str "banana") (str "a") (str "a") (-1) = str "banana" ∧
    Replace (str "banana") (str "x") (str "y") 1 = str "banana" ∧
    Replace (str "banana") (str "a") (str "<>") 1000 = str "b<>n<>n<>" := by
  decide

/-! ## Lemmas: `strings.Replace` on single bytes and prefixes -/

theorem hasPrefix_single_eq (a : Byte) (rest : GoString) :
    HasPrefix (a :: rest) [a] = true := by
  simp [HasPrefix]

theorem hasPrefix_single_ne (a c : Byte) (rest : GoString) (h : c ≠ a) :
    HasPrefix (c :: rest) [a] = false := by
  simp [HasPrefix, h]

theorem indexFrom_single_skip (a c : Byte) (rest : GoString) (i : Nat) (h : c ≠ a) :
    indexFrom [a] (c :: rest) i = indexFrom [a] rest (i + 1) := by
  simp only [indexFrom, hasPrefix_single_ne a c rest h, Bool.false_eq_true, if_false]

theorem indexFrom_single_none (a : Byte) : ∀ (s : GoString) (i : Nat), a ∉ s →
    indexFrom [a] s i = none := by
  intro s
  induction s with
  | nil => intro i _; simp [indexFrom]
  | cons c rest ih =>
    intro i h
    simp only [List.mem_cons, not_or] at h
    have hc : c ≠ a := fun e => h.1 e.symm
    rw [indexFrom_single_skip a c rest i hc]
    exact ih (i + 1) h.2

theorem indexFrom_single_first (a : Byte) : ∀ (pre post : GoString) (i : Nat), a ∉ pre →
    indexFrom [a] (pre ++ a :: post) i = some (i + pre.length) := by
  intro pre
  induction pre with
  | nil => intro post i _; simp [indexFrom, hasPrefix_single_eq]
  | cons c rest ih =>
    intro post i h
    simp only [List.mem_cons, not_or] at h
    have hc : c ≠ a := fun e => h.1 e.symm
    rw [List.cons_append, indexFrom_single_skip a c _ i hc, ih post (i + 1) h.2]
    simp only [List.length_cons]
    congr 1
    omega

theorem first_occurrence (a : Byte) : ∀ s : GoString, a ∈ s →
    ∃ pre post, s = pre ++ a :: post ∧ a ∉ pre := by
  intro s
  induction s with
  | nil => intro h; simp at h
  | cons c rest ih =>
    intro h
    by_cases hc : c = a
    · exact ⟨[], rest, by simp [hc], by simp⟩
    · have hr : a ∈ rest := by
        rcases List.mem_cons.mp h with e | e
        · exact absurd e.symm hc
        · exact e
      obtain ⟨pre, post, he, hn⟩ := ih hr
      refine ⟨c :: pre, post, by simp [he], ?_⟩
      simp only [List.mem_cons, not_or]
      exact ⟨fun e => hc e.symm, hn⟩

theorem countLoop_single (a : Byte) : ∀ (fuel : Nat) (s : GoString) (n : Nat),
    s.length < fuel → countLoop [a] fuel s n = n + s.count a := by
  intro fuel
  induction fuel with
  | zero => intro s n h; omega
  | succ k ih =>
    intro s n h
    simp only [countLoop]
    by_cases hm : a ∈ s
    · obtain ⟨pre, post, he, hn⟩ := first_occurrence a s hm
      subst he
      simp only [Index, indexFrom_single_first a pre post 0 hn, Nat.zero_add,
        List.length_singleton]
      have hd : List.drop (pre.length + 1) (pre ++ a :: post) = post := by
        rw [List.drop_append_eq_append_drop]
        simp
      rw [hd, ih post (n + 1) (by simp at h; omega)]
      simp only [List.count_append, List.count_cons_self, List.count_eq_zero_of_not_mem hn]
      omega
    · simp only [Index, indexFrom_single_none a s 0 hm, List.count_eq_zero_of_not_mem hm]
      rfl

theorem count_single (a : Byte) (s : GoString) : Count s [a] = s.count a := by
  simp only [Count, List.cons_ne_nil, if_false]
  rw [countLoop_single a _ s 0 (Nat.lt_succ_self _)]
  omega

theorem replaceLoop_single (a b : Byte) : ∀ (k : Nat) (s : GoString), s.count a = k →
    replaceLoop [a] [b] k s = s.map (fun c => if c = a then b else c) := by
  intro k
  induction k with
  | zero =>
    intro s h
    have hn : a ∉ s := List.count_eq_zero.mp h
    simp only [replaceLoop]
    symm
    calc s.map (fun c => if c = a then b else c) = s.map id := by
          apply List.map_congr_left
          intro c hc
          have : ¬ c = a := fun e => hn (e ▸ hc)
          simp [this]
      _ = s := List.map_id s
  | succ k ih =>
    intro s h
    have hm : a ∈ s := by
      apply List.count_pos_iff.mp
      omega
    obtain ⟨pre, post, he, hn⟩ := first_occurrence a s hm
    subst he
    have hd : List.drop (pre.length + 1) (pre ++ a :: post) = post := by
      rw [List.drop_append_eq_append_drop]
      simp
    have hcount : post.count a = k := by
      simp only [List.count_append, List.count_cons_self,
        List.count_eq_zero_of_not_mem hn] at h
      omega
    simp only [replaceLoop, Index, indexFrom_single_first a pre post 0 hn, Nat.zero_add,
      List.length_singleton, hd, ih post hcount, List.take_left', List.map_append,
      List.map_cons, if_true]
    have hpre : pre.map (fun c => if c = a then b else c) = pre := by
      calc pre.map (fun c => if c = a then b else c) = pre.map id := by
            apply List.map_congr_left
            intro c hc
            have : ¬ c = a := fun e => hn (e ▸ hc)
            simp [this]
        _ = pre := List.map_id pre
    rw [hpre]
    simp

/-- Replacing every instance of one byte by another byte is a map over the bytes. -/
theorem replace_all_single (a b : Byte) (hab : a ≠ b) (s : GoString) :
    Replace s [a] [b] (-1) = s.map (fun c => if c = a then b else c) := by
  have h1 : ¬ (([a] : GoString) = [b] ∨ (-1 : Int) = 0) := by simp [hab]
  simp only [Replace, h1, if_false, count_single]
  by_cases hz : s.count a = 0
  · simp only [hz, if_true]
    rw [← replaceLoop_single a b 0 s hz]
    rfl
  · simp only [hz, if_false]
    have h2 : ((-1 : Int) < 0 ∨ ((s.count a : Nat) : Int) < -1) := Or.inl (by decide)
    simp only [h2, if_true]
    exact replaceLoop_single a b _ s rfl

/-- Replacing the first instance of a byte that the text before it does not hold. -/
theorem replace_first_single (a : Byte) (new pre post : GoString) (hn : a ∉ pre)
    (hne : ([a] : GoString) ≠ new) :
    Replace (pre ++ a :: post) [a] new 1 = pre ++ new ++ post := by
  have h1 : ¬ (([a] : GoString) = new ∨ (1 : Int) = 0) := by simp [hne]
  have hc : (pre ++ a :: post).count a ≠ 0 := by
    simp only [List.count_append, List.count_cons_self]; omega
  have h2 : ¬ ((1 : Int) < 0 ∨ (((pre ++ a :: post).count a : Nat) : Int) < 1) := by omega
  have hd : List.drop (pre.length + 1) (pre ++ a :: post) = post := by
    rw [List.drop_append_eq_append_drop]
    simp
  simp only [Replace, h1, if_false, count_single, hc, h2]
  simp [replaceLoop, Index, indexFrom_single_first a pre post 0 hn, hd]

/-- Replacing the first instance of a non-empty `old` in `old ++ r` by `new`. -/
theorem replace_prefix_by (old new r : GoString) (h : old ≠ []) (hne : old ≠ new) :
    Replace (old ++ r) old new 1 = new ++ r := by
  have hc := count_append_pos old r h
  have h1 : ¬ (old = new ∨ (1 : Int) = 0) := by simp [hne]
  have h2 : ¬ ((1 : Int) < 0 ∨ ((Count (old ++ r) old : Nat) : Int) < 1) := by omega
  simp only [Replace, h1, if_false, hc, h2]
  simp [replaceLoop, index_append old r h]

theorem indexFrom_none_of_head (o : Byte) (os : GoString) : ∀ (s : GoString) (i : Nat),
    o ∉ s → indexFrom (o :: os) s i = none := by
  intro s
  induction s with
  | nil => intro i _; simp [indexFrom]
  | cons c rest ih =>
    intro i h
    simp only [List.mem_cons, not_or] at h
    have hp : HasPrefix (c :: rest) (o :: os) = false := by
      simp only [HasPrefix, List.length_cons, List.take_succ_cons, Bool.and_eq_false_imp,
        decide_eq_true_eq]
      intro _
      have : ¬ c = o := fun e => h.1 e.symm
      simp [this]
    simp only [indexFrom, hp, Bool.false_eq_true, if_false]
    exact ih (i + 1) h.2

/-- A text without the first byte of `old` is left as it is. -/
theorem replace_absent (o : Byte) (os new s : GoString) (n : Int) (h : o ∉ s) :
    Replace s (o :: os) new n = s := by
  have hc : Count s (o :: os) = 0 := by
    simp [Count, countLoop, Index, indexFrom_none_of_head o os s 0 h]
  simp only [Replace, hc]
  split <;> rfl

/-! ## Lemmas: `convertUrlToPath` and `convertPathToURL` on Windows -/

/-- The byte map of `strings.Replace(path, "/", "\\", -1)`. -/
theorem replace_slashes (s : GoString) :
    Replace s (str "/") (str "\\") (-1) = s.map (fun c => if c = 47 then 92 else c) := by
  have h1 : str "/" = ([47] : GoString) := by decide
  have h2 : str "\\" = ([92] : GoString) := by decide
  rw [h1, h2, replace_all_single 47 92 (by decide)]

/-- The byte map of `strings.Replace(path, "\\", "/", -1)`. -/
theorem replace_backslashes (s : GoString) :
    Replace s (str "\\") (str "/") (-1) = s.map (fun c => if c = 92 then 47 else c) := by
  have h1 : str "/" = ([47] : GoString) := by decide
  have h2 : str "\\" = ([92] : GoString) := by decide
  rw [h1, h2, replace_all_single 92 47 (by decide)]

theorem convertUrlToPath_windows (src : GoString) :
    convertUrlToPath true src =
      ((drives.foldl
          (fun path d =>
            if HasPrefix path (str "/" ++ d) then
              Replace path (str "/" ++ d) (d ++ str ":") 1
            else path)
          (QueryUnescape (Replace src (str "/browse") (str "") 1)).1).map
        (fun c => if c = 47 then 92 else c), none) := by
  simp only [convertUrlToPath, if_true, replace_slashes]

/-- The loop over the drive letters on a path that begins with `/` and a drive letter:
one rewrite, of that letter. -/
theorem drives_rewrite (l : Byte) (r : GoString)
    (hl : l = 99 ∨ l = 100 ∨ l = 101 ∨ l = 102) :
    drives.foldl
      (fun path d =>
        if HasPrefix path (str "/" ++ d) then
          Replace path (str "/" ++ d) (d ++ str ":") 1
        else path)
      (47 :: l :: r) = l :: 58 :: r := by
  have hc : str "/" ++ str "c" = ([47, 99] : GoString) := by decide
  have hd : str "/" ++ str "d" = ([47, 100] : GoString) := by decide
  have he : str "/" ++ str "e" = ([47, 101] : GoString) := by decide
  have hf : str "/" ++ str "f" = ([47, 102] : GoString) := by decide
  have hc2 : str "c" ++ str ":" = ([99, 58] : GoString) := by decide
  have hd2 : str "d" ++ str ":" = ([100, 58] : GoString) := by decide
  have he2 : str "e" ++ str ":" = ([101, 58] : GoString) := by decide
  have hf2 : str "f" ++ str ":" = ([102, 58] : GoString) := by decide
  have hrw : ∀ (x : Byte), Replace (47 :: x :: r) [47, x] [x, 58] 1 = x :: 58 :: r := by
    intro x
    have := replace_prefix_by [47, x] [x, 58] r (by simp) (by
      intro e
      simp only [List.cons.injEq, and_true] at e
      have h1 := e.1
      have h2 := e.2
      rw [← h1] at h2
      exact absurd h2 (by decide))
    simpa using this
  have hyes : ∀ (x : Byte) (t : GoString), HasPrefix (47 :: x :: t) [47, x] = true := by
    intro x t; simp [HasPrefix]
  have hno : ∀ (x y : Byte) (t : GoString), x ≠ y → HasPrefix (47 :: x :: t) [47, y] = false := by
    intro x y t h; simp [HasPrefix, h]
  have hdone : ∀ (x y z : Byte) (t : GoString), x ≠ 47 → HasPrefix (x :: z :: t) [47, y] = false := by
    intro x y z t h; simp [HasPrefix, h]
  simp only [drives, List.foldl_cons, List.foldl_nil, hc, hd, he, hf, hc2, hd2, he2, hf2]
  rcases hl with h | h | h | h <;> subst h
  · simp only [hyes, if_true, hrw, hdone 99 _ 58 r (by decide), Bool.false_eq_true, if_false]
  · simp only [hno 100 99 r (by decide), hyes, if_true, hrw, hdone 100 _ 58 r (by decide),
      Bool.false_eq_true, if_false]
  · simp only [hno 101 99 r (by decide), hno 101 100 r (by decide), hyes, if_true, hrw,
      hdone 101 _ 58 r (by decide), Bool.false_eq_true, if_false]
  · simp only [hno 102 99 r (by decide), hno 102 100 r (by decide),
      hno 102 101 r (by decide), hyes, if_true, hrw, Bool.false_eq_true, if_false]

theorem queryUnescape_slash_queryEscape (x : GoString) :
    QueryUnescape (47 :: QueryEscape x) = (47 :: x, none) := by
  rw [queryEscape_eq]
  obtain ⟨p, hp⟩ := unescapeScan_escapeBuild x 0 false
  have hs : unescapeScan (47 :: escapeBuild x) 0 false = .ok p := by
    rw [unescapeScan_plain 47 (by decide) (by decide)]; exact hp
  rw [queryUnescape_of_scan_ok _ p hs, unescapeBuild_plain 47 (by decide) (by decide),
    unescapeBuild_escapeBuild]

theorem map_slash_backslash (r : GoString) (h : 47 ∉ r) :
    (r.map (fun c => if c = 92 then 47 else c)).map (fun c => if c = 47 then 92 else c) = r := by
  induction r with
  | nil => rfl
  | cons c rest ih =>
    simp only [List.mem_cons, not_or] at h
    have hc : ¬ c = 47 := fun e => h.1 e.symm
    simp only [List.map_cons, ih h.2]
    by_cases h92 : c = 92
    · simp [h92]
    · simp [h92, hc]

theorem not_mem_map_slash (s : GoString) :
    47 ∉ s.map (fun c => if c = 47 then 92 else c) := by
  intro h
  obtain ⟨c, _, hc⟩ := List.mem_map.mp h
  by_cases h47 : c = 47
  · simp [h47] at hc
  · simp [h47] at hc

/-! ## Lemmas: decoding a concatenation, links, `trimSuffix` -/

theorem unescape_append : ∀ (k : Nat) (r : GoString), r.length ≤ k → ∀ (x : GoString) (n : Nat)
    (hp : Bool) (p : Nat × Bool), unescapeScan r n hp = .ok p →
    unescapeScan (r ++ x) n hp = unescapeScan x p.1 p.2 ∧
    unescapeBuild (r ++ x) = unescapeBuild r ++ unescapeBuild x := by
  intro k
  induction k with
  | zero =>
    intro r hr x n hp p h
    have : r = [] := List.length_eq_zero.mp (Nat.le_zero.mp hr)
    subst this
    simp only [unescapeScan, Except.ok.injEq] at h
    subst h
    exact ⟨rfl, rfl⟩
  | succ k ih =>
    intro r hr x n hp p h
    cases r with
    | nil =>
      simp only [unescapeScan, Except.ok.injEq] at h
      subst h
      exact ⟨rfl, rfl⟩
    | cons c rest =>
      by_cases h37 : c = 37
      · subst h37
        match rest, hr, h with
        | [], _, h => rw [unescapeScan.eq_def] at h; simp at h
        | [_], _, h => rw [unescapeScan.eq_def] at h; simp at h
        | a :: b :: rest2, hr, h =>
          have hab : ishex a = true ∧ ishex b = true := by
            rw [unescapeScan.eq_def] at h
            simp only [if_true] at h
            split at h
            · rename_i hh; simpa using hh
            · simp at h
          rw [unescapeScan_hex a b hab.1 hab.2] at h
          obtain ⟨i1, i2⟩ := ih rest2 (by simp at hr; omega) x (n + 1) hp p h
          simp only [List.cons_append]
          rw [unescapeScan_hex a b hab.1 hab.2, unescapeBuild_hex, unescapeBuild_hex, i1, i2]
          exact ⟨rfl, rfl⟩
      · by_cases h43 : c = 43
        · subst h43
          rw [unescapeScan_plus] at h
          obtain ⟨i1, i2⟩ := ih rest (by simp at hr; omega) x n true p h
          simp only [List.cons_append]
          rw [unescapeScan_plus, unescapeBuild_plus, unescapeBuild_plus, i1, i2]
          exact ⟨rfl, rfl⟩
        · rw [unescapeScan_plain c h37 h43] at h
          obtain ⟨i1, i2⟩ := ih rest (by simp at hr; omega) x n hp p h
          simp only [List.cons_append]
          rw [unescapeScan_plain c h37 h43, unescapeBuild_plain c h37 h43,
            unescapeBuild_plain c h37 h43, i1, i2]
          exact ⟨rfl, rfl⟩

theorem scan_ok_of_no_error (r : GoString) (h : (QueryUnescape r).2 = none) :
    ∃ p, unescapeScan r 0 false = .ok p := by
  unfold QueryUnescape at h
  cases hs : unescapeScan r 0 false with
  | error e => rw [hs] at h; simp at h
  | ok p => exact ⟨p, rfl⟩

theorem convertUrlToPath_parent_link (P : GoString) :
    convertUrlToPath false (str "/browse/" ++ convertPathToURL false P) =
      (str "/" ++ P, none) := by
  have h1 : str "/browse/" = str "/browse" ++ [47] := by decide
  have h2 : str "/" = ([47] : GoString) := by decide
  rw [h1, h2, List.append_assoc, convertUrlToPath_browse]
  simp only [convertPathToURL, Bool.false_eq_true, if_false, List.singleton_append]
  rw [queryUnescape_slash_queryEscape]

theorem hasSuffix_iff (s suffix : GoString) : HasSuffix s suffix = true ↔ suffix <:+ s := by
  simp only [HasSuffix, ge_iff_le, Bool.and_eq_true, decide_eq_true_eq, beq_iff_eq]
  constructor
  · rintro ⟨_, h2⟩
    refine ⟨s.take (s.length - suffix.length), ?_⟩
    calc s.take (s.length - suffix.length) ++ suffix
        = s.take (s.length - suffix.length) ++ s.drop (s.length - suffix.length) := by rw [h2]
      _ = s := List.take_append_drop _ _
  · rintro ⟨t, ht⟩
    subst ht
    refine ⟨by simp, ?_⟩
    simp

/-! ## Lemmas: occurrences of a text in a concatenation -/

theorem hasPrefix_iff (s p : GoString) : HasPrefix s p = true ↔ p <+: s := by
  simp only [HasPrefix, ge_iff_le, Bool.and_eq_true, decide_eq_true_eq, beq_iff_eq]
  constructor
  · rintro ⟨_, h2⟩
    refine ⟨s.drop p.length, ?_⟩
    calc p ++ s.drop p.length = s.take p.length ++ s.drop p.length := by rw [h2]
      _ = s := List.take_append_drop _ _
  · rintro ⟨t, ht⟩
    subst ht
    exact ⟨by simp, by simp⟩

theorem closedFor_iff (p t : GoString) :
    closedFor p t = true ↔
      ∀ k, 0 < k → k < p.length → k ≤ t.length → t.drop (t.length - k) ≠ p.take k := by
  simp only [closedFor, List.all_eq_true, List.mem_range, Bool.or_eq_true, beq_iff_eq,
    decide_eq_true_eq, bne_iff_ne, ne_eq]
  constructor
  · intro h k h0 hk hl
    rcases h k hk with (h1 | h1) | h1
    · omega
    · omega
    · exact h1
  · intro h k hk
    by_cases h0 : k = 0
    · exact Or.inl (Or.inl h0)
    · by_cases hl : t.length < k
      · exact Or.inl (Or.inr hl)
      · exact Or.inr (h k (by omega) hk (by omega))

theorem closedFor_tail (p : GoString) (c : Byte) (t : GoString)
    (h : closedFor p (c :: t) = true) : closedFor p t = true := by
  rw [closedFor_iff] at h ⊢
  intro k h0 hk hl
  have := h k h0 hk (by simp only [List.length_cons]; omega)
  have e : (c :: t).length - k = (t.length - k) + 1 := by
    simp only [List.length_cons]; omega
  rw [e, List.drop_succ_cons] at this
  exact this

theorem hasPrefix_append_closed (p : GoString) (c : Byte) (t x : GoString)
    (h : closedFor p (c :: t) = true) :
    HasPrefix (c :: t ++ x) p = HasPrefix (c :: t) p := by
  by_cases hlen : p.length ≤ (c :: t).length
  · have h1 : List.take p.length (c :: t ++ x) = List.take p.length (c :: t) :=
      List.take_append_of_le_length hlen
    have h2 : p.length ≤ (c :: t ++ x).length := by
      simp only [List.length_append]; omega
    simp only [HasPrefix, ge_iff_le, h1, h2, hlen]
  · have hf : HasPrefix (c :: t) p = false := by
      simp only [HasPrefix, ge_iff_le, hlen, decide_False, Bool.false_and]
    rw [hf]
    cases hb : HasPrefix (c :: t ++ x) p with
    | false => rfl
    | true =>
      exfalso
      obtain ⟨y, hy⟩ := (hasPrefix_iff _ _).mp hb
      rw [closedFor_iff] at h
      have hk := h (c :: t).length (by simp) (by omega) (Nat.le_refl _)
      apply hk
      rw [Nat.sub_self, List.drop_zero]
      have : (c :: t ++ x).take (c :: t).length = (p ++ y).take (c :: t).length := by rw [hy]
      rw [List.take_left' rfl, List.take_append_of_le_length (by omega)] at this
      exact this

/-- An occurrence of `p` cannot lie across the end of a text that is closed for `p`. -/
theorem occurrences_append (p : GoString) : ∀ (t x : GoString), closedFor p t = true →
    occurrences p (t ++ x) = occurrences p t + occurrences p x := by
  intro t
  induction t with
  | nil => intro x _; simp [occurrences]
  | cons c t ih =>
    intro x h
    have e : c :: t ++ x = c :: (t ++ x) := rfl
    have hp := hasPrefix_append_closed p c t x h
    rw [e] at hp ⊢
    rw [occurrences, occurrences, hp, ih x (closedFor_tail p c t h)]
    omega

theorem closedFor_append (p a b : GoString) (ha : closedFor p a = true)
    (hb : closedFor p b = true) : closedFor p (a ++ b) = true := by
  rw [closedFor_iff] at ha hb ⊢
  intro k h0 hk hl
  by_cases hkb : k ≤ b.length
  · have e : (a ++ b).drop ((a ++ b).length - k) = b.drop (b.length - k) := by
      rw [List.drop_append_eq_append_drop]
      have h1 : a.length ≤ (a ++ b).length - k := by simp only [List.length_append]; omega
      rw [List.drop_eq_nil_of_le h1]
      simp only [List.length_append, List.nil_append]
      congr 1
      omega
    rw [e]
    exact hb k h0 hk hkb
  · intro he
    simp only [List.length_append] at hl
    have hj := ha (k - b.length) (by omega) (by omega) (by omega)
    apply hj
    have e : (a ++ b).drop ((a ++ b).length - k) = a.drop (a.length - (k - b.length)) ++ b := by
      rw [List.drop_append_eq_append_drop]
      have h1 : (a ++ b).length - k - a.length = 0 := by
        simp only [List.length_append]; omega
      have h2 : (a ++ b).length - k = a.length - (k - b.length) := by
        simp only [List.length_append]; omega
      rw [h1, List.drop_zero, h2]
    rw [e] at he
    have := congrArg (List.take (k - b.length)) he
    rw [List.take_left' (by simp only [List.length_drop]; omega), List.take_take] at this
    rw [this]
    congr 1
    omega

/-- A text without the first byte of `p` holds no occurrence of `p` and is closed for
it. -/
theorem occurrences_of_not_mem (h : Byte) (q : GoString) : ∀ e : GoString, h ∉ e →
    occurrences (h :: q) e = 0 ∧ closedFor (h :: q) e = true := by
  intro e he
  constructor
  · induction e with
    | nil => rfl
    | cons c rest ih =>
      simp only [List.mem_cons, not_or] at he
      have hp : HasPrefix (c :: rest) (h :: q) = false := by
        cases hb : HasPrefix (c :: rest) (h :: q) with
        | false => rfl
        | true =>
          obtain ⟨y, hy⟩ := (hasPrefix_iff _ _).mp hb
          simp only [List.cons_append, List.cons.injEq] at hy
          exact absurd hy.1 he.1
      rw [occurrences, hp, ih he.2]
      rfl
  · rw [closedFor_iff]
    intro k h0 _ _ heq
    have hm : h ∈ e.drop (e.length - k) := by
      rw [heq]
      cases k with
      | zero => omega
      | succ j => simp
    exact he (List.mem_of_mem_drop hm)

/-! ## Lemmas: the escapers and the page template -/

set_option maxRecDepth 100000 in
theorem htmlReplacementTable_delims : ∀ c : Byte,
    60 ∉ (template.htmlReplacementTable c).getD [c] ∧
    62 ∉ (template.htmlReplacementTable c).getD [c] ∧
    39 ∉ (template.htmlReplacementTable c).getD [c] ∧
    34 ∉ (template.htmlReplacementTable c).getD [c] := by decide

/-- The result of `htmlReplacer` holds none of `<`, `>`, `'` and `"`. -/
theorem htmlReplacer_delims (s : GoString) :
    60 ∉ template.htmlReplacer s ∧ 62 ∉ template.htmlReplacer s ∧
    39 ∉ template.htmlReplacer s ∧ 34 ∉ template.htmlReplacer s := by
  simp only [template.htmlReplacer, List.mem_flatMap, not_exists, not_and]
  exact ⟨fun c _ => (htmlReplacementTable_delims c).1,
    fun c _ => (htmlReplacementTable_delims c).2.1,
    fun c _ => (htmlReplacementTable_delims c).2.2.1,
    fun c _ => (htmlReplacementTable_delims c).2.2.2⟩

/-- A text of bytes without a replacement is left as it is by `htmlReplacer`. -/
theorem htmlReplacer_plain : ∀ s : GoString,
    (∀ b ∈ s, template.htmlReplacementTable b = none) → template.htmlReplacer s = s := by
  intro s
  induction s with
  | nil => intro _; rfl
  | cons c rest ih =>
    intro h
    have hc := h c (List.mem_cons_self _ _)
    have hr := ih (fun b hb => h b (List.mem_cons_of_mem _ hb))
    simp only [template.htmlReplacer] at hr ⊢
    simp [List.flatMap_cons, hc, hr]

/-- A text of kept bytes without `%` is left as it is by `processURLOnto`. -/
theorem processURLOnto_kept : ∀ s : GoString,
    (∀ b ∈ s, template.urlKept b = true) → template.processURLOnto s = s := by
  intro s
  induction s with
  | nil => intro _; rfl
  | cons c rest ih =>
    intro h
    have hc := h c (List.mem_cons_self _ _)
    have hr := ih (fun b hb => h b (List.mem_cons_of_mem _ hb))
    simp [template.processURLOnto, hc, hr]

theorem closedFor_nil (p : GoString) : closedFor p [] = true := by
  rw [closedFor_iff]
  intro k h0 _ hl
  simp only [List.length_nil] at hl
  omega

/-- Occurrences in a text made of blocks that are closed for `p`. -/
theorem occurrences_flatMap (p : GoString) (f : ItemViewModel → GoString)
    (hf : ∀ item, closedFor p (f item) = true) : ∀ items : List ItemViewModel,
    closedFor p (items.flatMap f) = true ∧
    occurrences p (items.flatMap f) = (items.map (fun item => occurrences p (f item))).sum := by
  intro items
  induction items with
  | nil => exact ⟨closedFor_nil p, rfl⟩
  | cons item rest ih =>
    simp only [List.flatMap_cons, List.map_cons, List.sum_cons]
    exact ⟨closedFor_append p _ _ (hf item) ih.1, by
      rw [occurrences_append p _ _ (hf item), ih.2]⟩

theorem executeItem_dir (item : ItemViewModel) (h : item.IsDir = true) :
    executeItem item =
      str "\n\t\t" ++ (str "\n\t\t<div class=\"directory\">\n\t\t<a href='" ++
        (template.attrEscaper (template.urlNormalizer (template.urlFilter item.Url)) ++
          (str "'>" ++ (template.htmlEscaper item.Name ++
            (str "</a>\n\t\t</div>\n\t\t" ++ str "\n\t\t"))))) := by
  simp only [executeItem, h, if_true, List.append_assoc]

theorem executeItem_file (item : ItemViewModel) (h : item.IsDir = false) :
    executeItem item =
      str "\n\t\t" ++ (str "\n\t\t<div class=\"file\">\t\t\n\t\t<span>" ++
        (template.htmlEscaper item.Name ++
          (str "</span>\n\t\t</div>\n\t\t" ++ str "\n\t\t"))) := by
  simp only [executeItem, h, Bool.false_eq_true, if_false, List.append_assoc]

/-- Occurrences of a text that begins with `<` in the block of one item: they lie in
the text of the template, not in the escaped values. -/
theorem occurrences_executeItem (q : GoString) (item : ItemViewModel)
    (h0 : closedFor (60 :: q) (str "\n\t\t") = true)
    (h1 : closedFor (60 :: q) (str "\n\t\t<div class=\"directory\">\n\t\t<a href='") = true)
    (h2 : closedFor (60 :: q) (str "'>") = true)
    (h3 : closedFor (60 :: q) (str "</a>\n\t\t</div>\n\t\t") = true)
    (h4 : closedFor (60 :: q) (str "\n\t\t<div class=\"file\">\t\t\n\t\t<span>") = true)
    (h5 : closedFor (60 :: q) (str "</span>\n\t\t</div>\n\t\t") = true) :
    closedFor (60 :: q) (executeItem item) = true ∧
    occurrences (60 :: q) (executeItem item) =
      if item.IsDir then
        occurrences (60 :: q) (str "\n\t\t") +
        (occurrences (60 :: q) (str "\n\t\t<div class=\"directory\">\n\t\t<a href='") +
        (occurrences (60 :: q) (str "'>") +
        (occurrences (60 :: q) (str "</a>\n\t\t</div>\n\t\t") +
         occurrences (60 :: q) (str "\n\t\t"))))
      else
        occurrences (60 :: q) (str "\n\t\t") +
        (occurrences (60 :: q) (str "\n\t\t<div class=\"file\">\t\t\n\t\t<span>") +
        (occurrences (60 :: q) (str "</span>\n\t\t</div>\n\t\t") +
         occurrences (60 :: q) (str "\n\t\t"))) := by
  have hname := occurrences_of_not_mem 60 q _ (htmlReplacer_delims item.Name).1
  have hurl := occurrences_of_not_mem 60 q _
    (htmlReplacer_delims (template.urlNormalizer (template.urlFilter item.Url))).1
  cases hd : item.IsDir with
  | true =>
    rw [executeItem_dir item hd]
    simp only [template.attrEscaper, template.htmlEscaper, if_true]
    have c5 := closedFor_append _ _ _ h3 h0
    have c4 := closedFor_append _ _ _ hname.2 c5
    have c3 := closedFor_append _ _ _ h2 c4
    have c2 := closedFor_append _ _ _ hurl.2 c3
    have c1 := closedFor_append _ _ _ h1 c2
    refine ⟨closedFor_append _ _ _ h0 c1, ?_⟩
    rw [occurrences_append _ _ _ h0, occurrences_append _ _ _ h1,
      occurrences_append _ _ _ hurl.2, occurrences_append _ _ _ h2,
      occurrences_append _ _ _ hname.2, occurrences_append _ _ _ h3, hurl.1, hname.1]
    omega
  | false =>
    rw [executeItem_file item hd]
    simp only [template.htmlEscaper, Bool.false_eq_true, if_false]
    have c3 := closedFor_append _ _ _ h5 h0
    have c2 := closedFor_append _ _ _ hname.2 c3
    have c1 := closedFor_append _ _ _ h4 c2
    refine ⟨closedFor_append _ _ _ h0 c1, ?_⟩
    rw [occurrences_append _ _ _ h0, occurrences_append _ _ _ h4,
      occurrences_append _ _ _ hname.2, occurrences_append _ _ _ h5, hname.1]
    omega

set_option maxRecDepth 100000 in
theorem anchor_in_template :
    closedFor (str "<a ") pageHead = true ∧ occurrences (str "<a ") pageHead = 0 ∧
    occurrences (str "<a ") pageTail = 0 ∧ occurrences (str "<a ") pagePlaceholder = 0 ∧
    closedFor (str "<a ") (str "\n\t\t") = true ∧
    closedFor (str "<a ") (str "\n\t\t<div class=\"directory\">\n\t\t<a href='") = true ∧
    closedFor (str "<a ") (str "'>") = true ∧
    closedFor (str "<a ") (str "</a>\n\t\t</div>\n\t\t") = true ∧
    closedFor (str "<a ") (str "\n\t\t<div class=\"file\">\t\t\n\t\t<span>") = true ∧
    closedFor (str "<a ") (str "</span>\n\t\t</div>\n\t\t") = true ∧
    occurrences (str "<a ") (str "\n\t\t") = 0 ∧
    occurrences (str "<a ") (str "\n\t\t<div class=\"directory\">\n\t\t<a href='") = 1 ∧
    occurrences (str "<a ") (str "'>") = 0 ∧
    occurrences (str "<a ") (str "</a>\n\t\t</div>\n\t\t") = 0 ∧
    occurrences (str "<a ") (str "\n\t\t<div class=\"file\">\t\t\n\t\t<span>") = 0 ∧
    occurrences (str "<a ") (str "</span>\n\t\t</div>\n\t\t") = 0 := by
  decide

set_option maxRecDepth 100000 in
theorem bare_div_in_template :
    closedFor (str "<div>") pageHead = true ∧ occurrences (str "<div>") pageHead = 0 ∧
    occurrences (str "<div>") pageTail = 0 ∧ occurrences (str "<div>") pagePlaceholder = 1 ∧
    closedFor (str "<div>") (str "\n\t\t") = true ∧
    closedFor (str "<div>") (str "\n\t\t<div class=\"directory\">\n\t\t<a href='") = true ∧
    closedFor (str "<div>") (str "'>") = true ∧
    closedFor (str "<div>") (str "</a>\n\t\t</div>\n\t\t") = true ∧
    closedFor (str "<div>") (str "\n\t\t<div class=\"file\">\t\t\n\t\t<span>") = true ∧
    closedFor (str "<div>") (str "</span>\n\t\t</div>\n\t\t") = true ∧
    occurrences (str "<div>") (str "\n\t\t") = 0 ∧
    occurrences (str "<div>") (str "\n\t\t<div class=\"directory\">\n\t\t<a href='") = 0 ∧
    occurrences (str "<div>") (str "'>") = 0 ∧
    occurrences (str "<div>") (str "</a>\n\t\t</div>\n\t\t") = 0 ∧
    occurrences (str "<div>") (str "\n\t\t<div class=\"file\">\t\t\n\t\t<span>") = 0 ∧
    occurrences (str "<div>") (str "</span>\n\t\t</div>\n\t\t") = 0 := by
  decide

set_option maxRecDepth 100000 in
theorem placeholder_closed :
    closedFor (str "<a ") pagePlaceholder = true ∧
    closedFor (str "<div>") pagePlaceholder = true := by
  decide

/-- Occurrences of a text that begins with `<` in a page with items. -/
theorem occurrences_executePage (q : GoString) (page : PageViewModel)
    (hne : page.Items ≠ [])
    (hh : closedFor (60 :: q) pageHead = true)
    (hi : ∀ item, closedFor (60 :: q) (executeItem item) = true) :
    occurrences (60 :: q) (executePage page) =
      occurrences (60 :: q) pageHead +
      ((page.Items.map (fun item => occurrences (60 :: q) (executeItem item))).sum +
       occurrences (60 :: q) pageTail) := by
  obtain ⟨c, o⟩ := occurrences_flatMap (60 :: q) executeItem hi page.Items
  simp only [executePage, hne, if_false, List.append_assoc]
  rw [occurrences_append _ _ _ hh, occurrences_append _ _ _ c, o]

theorem sum_isDir : ∀ items : List ItemViewModel,
    (items.map (fun item => if item.IsDir = true then 1 else 0)).sum =
      items.countP (fun item => item.IsDir) := by
  intro items
  induction items with
  | nil => rfl
  | cons item rest ih =>
    simp only [List.map_cons, List.sum_cons, ih, List.countP_cons]
    cases item.IsDir
    · simp
    · simp; omega

theorem sum_zero : ∀ items : List ItemViewModel,
    (items.map (fun _ => 0)).sum = 0 := by
  intro items
  induction items with
  | nil => rfl
  | cons item rest ih => simp

set_option maxRecDepth 100000 in
theorem unreserved_kept : ∀ b : Byte, (shouldEscape b = false ∨ b = 47) →
    template.htmlReplacementTable b = none ∧ template.urlKept b = true ∧ b ≠ 58 := by
  decide

/-- A URL of letters, digits and `-._~/` passes the three URL escapers unchanged. -/
theorem url_escapers_plain (s : GoString) (h : ∀ b ∈ s, shouldEscape b = false ∨ b = 47) :
    template.attrEscaper (template.urlNormalizer (template.urlFilter s)) = s := by
  have hcolon : (58 : Byte) ∉ s := fun hm => (unreserved_kept 58 (h 58 hm)).2.2 rfl
  have hc : str ":" = ([58] : GoString) := by decide
  have hsafe : template.isSafeURL s = true := by
    simp only [template.isSafeURL, hc, Index, indexFrom_single_none 58 s 0 hcolon]
  simp only [template.urlFilter, hsafe, if_true, template.urlNormalizer,
    template.attrEscaper]
  rw [processURLOnto_kept s (fun b hb => (unreserved_kept b (h b hb)).2.1),
    htmlReplacer_plain s (fun b hb => (unreserved_kept b (h b hb)).1)]

/-! ## The escapers on cases of the test tables of the Go library -/

theorem htmlEscaper_examples :
    [str "", str "plain", str "<b> \"foo%\" O'Reilly &bar;", str "a+b", str "\x00"].map
      template.htmlEscaper =
    [str "", str "plain", str "&lt;b&gt; &#34;foo%&#34; O&#39;Reilly &amp;bar;",
     str "a&#43;b", str "\uFFFD"] := by
  decide

theorem urlNormalizer_examples :
    [str "", str "http://example.com:80/foo/bar?q=foo%20&bar=x+y#frag", str " ",
     str "%7c", str "%7C", str "%2", str "%", str "%z", str "/foo|bar/%5c\u1234"].map
      template.urlNormalizer =
    [str "", str "http://example.com:80/foo/bar?q=foo%20&bar=x+y#frag", str "%20",
     str "%7c", str "%7C", str "%252", str "%25", str "%25z",
     str "/foo%7cbar/%5c%e1%88%b4"] := by
  decide

theorem urlFilter_examples :
    [str "http://foo/bar", str "/foo/bar?a=b&c=d", str "HTTPS://foo", str "MailTo:x",
     str "javascript:alert(1)", str "JavaScript:alert(1)", str "about:blank",
     str "a/b:c"].map template.urlFilter =
    [str "http://foo/bar", str "/foo/bar?a=b&c=d", str "HTTPS://foo", str "MailTo:x",
     str "#ZgotmplZ", str "#ZgotmplZ", str "#ZgotmplZ", str "a/b:c"] := by
  decide

/-! ## The claims -/

/-- C1 (as stated, refuted): for `P = "/home/user"` the link built for `P` has the request
path `/browse/%2Fhome%2Fuser`, and `convertUrlToPath` translates it to `//home/user`,
which is not `P`, not `P` followed by a separator and not `P` without its last byte. -/
theorem C1_roundtrip_counterexample :
    str "/browse/" ++ convertPathToURL false (str "/home/user") = str "/browse/%2Fhome%2Fuser" ∧
    (convertUrlToPath false (str "/browse/%2Fhome%2Fuser")).1 = str "//home/user" ∧
    ¬ ((convertUrlToPath false (str "/browse/%2Fhome%2Fuser")).1 = str "/home/user" ∨
       (convertUrlToPath false (str "/browse/%2Fhome%2Fuser")).1 = str "/home/user" ++ str "/" ∨
       (convertUrlToPath false (str "/browse/%2Fhome%2Fuser")).1 ++ str "/" = str "/home/user") := by
  decide

/-- C1 (amended): on a forward-slash platform, translating the link built for a path `P`
gives, with a nil error, the path `"/" ++ P` up to at most one trailing separator: the
original path behind one more leading separator.  It is `"/" ++ P` itself when that
does not end with a separator.  For a `P` that begins with `/` the result is lexically
the same location as `P`: `filepath.Clean` gives the same for both. -/
theorem C1_roundtrip_amended (P : GoString) :
    (convertUrlToPath false (str "/browse/" ++ convertPathToURL false P)).2 = none ∧
    ((convertUrlToPath false (str "/browse/" ++ convertPathToURL false P)).1 = str "/" ++ P ∨
     (convertUrlToPath false (str "/browse/" ++ convertPathToURL false P)).1 =
       (str "/" ++ P) ++ str "/" ∨
     (convertUrlToPath false (str "/browse/" ++ convertPathToURL false P)).1 ++ str "/" =
       str "/" ++ P) ∧
    (strings.HasSuffix (str "/" ++ P) (str "/") = false →
      (convertUrlToPath false (str "/browse/" ++ convertPathToURL false P)).1 =
        str "/" ++ P) ∧
    (P.head? = some 47 →
      filepath.Clean (convertUrlToPath false (str "/browse/" ++ convertPathToURL false P)).1 =
        filepath.Clean P) := by
  rw [convertUrlToPath_parent_link P]
  refine ⟨rfl, Or.inl rfl, fun _ => rfl, ?_⟩
  intro h
  have h2 : str "/" = ([47] : GoString) := by decide
  cases P with
  | nil => simp at h
  | cons c t =>
    simp only [List.head?_cons, Option.some.injEq] at h
    subst h
    simp only [h2, List.singleton_append]
    exact clean_double_slash t

/-- C1 (amended), at `P = "/home/user"`: the link translates to `//home/user`, which
cleans to `/home/user`. -/
theorem C1_roundtrip_amended_witness :
    strings.HasSuffix (str "/" ++ str "/home/user") (str "/") = false ∧
    (convertUrlToPath false (str "/browse/" ++ convertPathToURL false (str "/home/user"))).1 =
      str "/" ++ str "/home/user" ∧
    (str "/home/user").head? = some 47 ∧
    filepath.Clean
        (convertUrlToPath false (str "/browse/" ++ convertPathToURL false (str "/home/user"))).1 =
      filepath.Clean (str "/home/user") :=
  ⟨by decide, (C1_roundtrip_amended (str "/home/user")).2.2.1 (by decide), by decide,
   (C1_roundtrip_amended (str "/home/user")).2.2.2 (by decide)⟩

/-- C2 (as stated, refuted): the remainder `/%zz` of the request path `/browse/%zz` is not
validly percent-encoded, and `convertUrlToPath` returns the empty string for it, not the
remainder. -/
theorem C2_decode_failure_counterexample :
    Replace (str "/browse/%zz") (str "/browse") (str "") 1 = str "/%zz" ∧
    (QueryUnescape (str "/%zz")).2 ≠ none ∧
    convertUrlToPath false (str "/browse/%zz") = (str "", none) ∧
    (convertUrlToPath false (str "/browse/%zz")).1 ≠ str "/%zz" := by
  decide

/-- C2 (amended): when `url.QueryUnescape` fails on the remainder of the request path
after the removal of `/browse`, `convertUrlToPath` on a forward-slash platform returns
the empty string (the string result of the failed call) and a nil error. -/
theorem C2_decode_failure_amended (src : GoString)
    (h : (QueryUnescape (Replace src (str "/browse") (str "") 1)).2 ≠ none) :
    convertUrlToPath false src = (str "", none) := by
  rw [convertUrlToPath_unix]
  have he : str "" = ([] : GoString) := by decide
  rw [he] at h ⊢
  generalize Replace src (str "/browse") [] 1 = x at h ⊢
  unfold QueryUnescape at h ⊢
  cases hs : unescapeScan x 0 false with
  | error e => rfl
  | ok p =>
    rw [hs] at h
    obtain ⟨n, hp⟩ := p
    simp only at h
    split at h <;> simp at h

/-- C2 (amended), at the request path `/browse/%zz`. -/
theorem C2_decode_failure_amended_witness :
    (QueryUnescape (Replace (str "/browse/%zz") (str "/browse") (str "") 1)).2 ≠ none ∧
    convertUrlToPath false (str "/browse/%zz") = (str "", none) :=
  ⟨by decide, C2_decode_failure_amended (str "/browse/%zz") (by decide)⟩

/-- C3 (the code at the failing input): the decoded remainder of `/browse/home/` is
`/home/`, which ends with a separator; `trimSuffix` would give `/home`, but
`convertUrlToPath` returns `/home/`, separator included.  In general the result is the
decoded remainder itself, whatever its last byte. -/
theorem C3_trailing_separator_kept :
    (QueryUnescape (str "/home/")).1 = str "/home/" ∧
    trimSuffix (str "/home/") (str "/") = str "/home" ∧
    convertUrlToPath false (str "/browse/home/") = (str "/home/", none) ∧
    ∀ r : GoString, (convertUrlToPath false (str "/browse" ++ r)).1 = (QueryUnescape r).1 := by
  refine ⟨by decide, by decide, by decide, ?_⟩
  intro r
  rw [convertUrlToPath_browse]

/-- C4 (as stated, refuted): the absolute path `//` denotes the filesystem root
(`filepath.Clean` gives `/`), yet the item list built for it holds the parent item. -/
theorem C4_parent_link_counterexample :
    (str "//").head? = some 47 ∧
    filepath.Clean (str "//") = str "/" ∧
    (buildPageViewModel unix (str "/browse/%2F") (str "//") []).Items =
      [{ Name := str ".. Go Up", IsDir := true, Url := str "/browse/%2F" }] ∧
    ¬ ((∃ it ∈ (buildPageViewModel unix (str "/browse/%2F") (str "//") []).Items,
          it.Name = str ".. Go Up") ↔
       filepath.Clean (str "//") ≠ str "/") := by
  decide

/-- C4 (amended): on a forward-slash platform, for a path that begins with `/`, the item
list starts with the parent item followed by the items of the entries exactly when the
path is not the string `/`; for the path `/` it holds the items of the entries only. -/
theorem C4_parent_link_amended (src path : GoString) (files : List FileInfo)
    (h : path.head? = some 47) :
    ((buildPageViewModel unix src path files).Items =
        prevDirItem unix (trimSuffix (filepath.Dir path) (str ".")) ::
          files.map (fileItem src) ↔ path ≠ str "/") ∧
    ((buildPageViewModel unix src path files).Items = files.map (fileItem src) ↔
        path = str "/") ∧
    (prevDirItem unix (trimSuffix (filepath.Dir path) (str "."))).Name = str ".. Go Up" := by
  have hiff := trimSuffix_dir_eq_iff path h
  have hitems := buildPageViewModel_items unix src path files
  have hdir : unix.Dir = filepath.Dir := rfl
  rw [hdir] at hitems
  refine ⟨?_, ?_, rfl⟩
  · constructor
    · intro he hp
      rw [if_neg (by simpa using hiff.mpr hp)] at hitems
      rw [hitems] at he
      have := congrArg List.length he
      simp at this
    · intro hp
      rw [if_pos (fun e => hp (hiff.mp e))] at hitems
      rw [hitems]; rfl
  · constructor
    · intro he
      by_contra hp
      rw [if_pos (fun e => hp (hiff.mp e))] at hitems
      rw [hitems] at he
      have := congrArg List.length he
      simp at this
    · intro hp
      rw [if_neg (by simpa using hiff.mpr hp)] at hitems
      rw [hitems]; rfl

/-- C4 (amended), at the path `/home/user` without entries. -/
theorem C4_parent_link_amended_witness :
    (str "/home/user").head? = some 47 ∧
    ((buildPageViewModel unix (str "/browse/home/user") (str "/home/user") []).Items =
        prevDirItem unix (trimSuffix (filepath.Dir (str "/home/user")) (str ".")) ::
          ([] : List FileInfo).map (fileItem (str "/browse/home/user")) ↔
      str "/home/user" ≠ str "/") :=
  ⟨by decide,
   (C4_parent_link_amended (str "/browse/home/user") (str "/home/user") [] (by decide)).1⟩

/-- C5: the items of the page model are the parent item, if any, followed by one item
per entry of the listing, in the order of the listing, each with the name and the
directory flag of its entry; so there are `|es|` or `|es| + 1` items.  Entries `docs`
(directory) and `readme.txt` (file) under `/home/user` give the three items Go Up, `docs`,
`readme.txt`. -/
theorem C5_items_order_complete (pf : Platform) (src path : GoString) (es : List FileInfo) :
    ((buildPageViewModel pf src path es).Items = es.map (fileItem src) ∨
     (buildPageViewModel pf src path es).Items =
       prevDirItem pf (trimSuffix (pf.Dir path) (str ".")) :: es.map (fileItem src)) ∧
    (es.map (fileItem src)).map (fun i => (i.Name, i.IsDir)) =
      es.map (fun e => (e.Name, e.IsDir)) ∧
    ((buildPageViewModel pf src path es).Items.length = es.length ∨
     (buildPageViewModel pf src path es).Items.length = es.length + 1) ∧
    (buildPageViewModel unix (str "/browse/%2Fhome%2Fuser") (str "/home/user")
        [{ Name := str "docs", IsDir := true },
         { Name := str "readme.txt", IsDir := false }]).Items =
      [{ Name := str ".. Go Up", IsDir := true, Url := str "/browse/%2Fhome" },
       { Name := str "docs", IsDir := true, Url := str "/browse/%2Fhome%2Fuser/docs" },
       { Name := str "readme.txt", IsDir := false,
         Url := str "/browse/%2Fhome%2Fuser/readme.txt" }] := by
  refine ⟨?_, ?_, ?_, by decide⟩
  · rw [buildPageViewModel_items]
    split
    · right; rfl
    · left; rfl
  · simp [fileItem, Function.comp_def]
  · rw [buildPageViewModel_items]
    split
    · right; simp
    · left; simp

/-- C6 (the code at the failing input): for the path `/a./b` the containing directory is
`filepath.Dir(path) = "/a."`, whose link would be `/browse/%2Fa.`; the parent item that
`writeTemplate` builds has the link `/browse/%2Fa`, the link of another directory, `/a`. -/
theorem C6_go_up_target_trimmed :
    filepath.Dir (str "/a./b") = str "/a." ∧
    str "/browse/" ++ convertPathToURL false (str "/a.") = str "/browse/%2Fa." ∧
    (buildPageViewModel unix (str "/browse/a./b") (str "/a./b") []).Items =
      [{ Name := str ".. Go Up", IsDir := true, Url := str "/browse/%2Fa" }] ∧
    str "/browse/%2Fa" = str "/browse/" ++ convertPathToURL false (str "/a") := by
  decide

/-- C7: the item built for a directory entry `f` is in the page model; its name is the
name of the entry unchanged and its link is `src ++ "/" ++ e` with
`e = url.QueryEscape(name)`, where `e` has only ASCII letters, digits and the bytes
`-` `_` `.` `~` `%` `+`, and `url.QueryUnescape(e)` is the name again.  The name
`a b&c.txt` is escaped to `a+b%26c.txt`. -/
theorem C7_entry_escaping (pf : Platform) (src path : GoString) (files : List FileInfo)
    (f : FileInfo) (hf : f ∈ files) :
    fileItem src f ∈ (buildPageViewModel pf src path files).Items ∧
    (fileItem src f).Name = f.Name ∧
    (fileItem src f).Url = src ++ str "/" ++ QueryEscape f.Name ∧
    (∀ b ∈ QueryEscape f.Name, queryEscapedByte b = true) ∧
    QueryUnescape (QueryEscape f.Name) = (f.Name, none) ∧
    fileItem src { Name := str "a b&c.txt", IsDir := false } =
      { Name := str "a b&c.txt", IsDir := false, Url := src ++ str "/" ++ str "a+b%26c.txt" } := by
  refine ⟨?_, rfl, rfl, ?_, queryUnescape_queryEscape _, ?_⟩
  · rw [buildPageViewModel_items]
    exact List.mem_append_right _ (List.mem_map_of_mem _ hf)
  · intro b hb
    rw [queryEscape_eq] at hb
    exact queryEscapedByte_escapeBuild _ b hb
  · have h : QueryEscape (str "a b&c.txt") = str "a+b%26c.txt" := by decide
    simp only [fileItem, h]

/-- C7, for the single entry `a b&c.txt` under the request path `/browse/x`. -/
theorem C7_entry_escaping_witness :
    ({ Name := str "a b&c.txt", IsDir := false } : FileInfo) ∈
      [({ Name := str "a b&c.txt", IsDir := false } : FileInfo)] ∧
    (fileItem (str "/browse/x") { Name := str "a b&c.txt", IsDir := false }).Url =
      str "/browse/x" ++ str "/" ++ QueryEscape (str "a b&c.txt") :=
  ⟨List.mem_singleton.mpr rfl,
   (C7_entry_escaping unix (str "/browse/x") (str "/x")
      [{ Name := str "a b&c.txt", IsDir := false }]
      { Name := str "a b&c.txt", IsDir := false } (List.mem_singleton.mpr rfl)).2.2.1⟩

/-- C8: for a request path `"/browse" ++ r`, `convertUrlToPath` on a forward-slash platform
returns the string result of `url.QueryUnescape(r)` and a nil error: a value determined
by `r` alone, which is the decoding `d` of `r` whenever `r` decodes to `d`.  Only the
leading `/browse` is removed: `/browse/a/browse/b` gives `/a/browse/b`. -/
theorem C8_prefix_stripped_from_front (r : GoString) :
    convertUrlToPath false (str "/browse" ++ r) = ((QueryUnescape r).1, none) ∧
    (∀ d : GoString, QueryUnescape r = (d, none) →
      convertUrlToPath false (str "/browse" ++ r) = (d, none)) ∧
    convertUrlToPath false (str "/browse/a/browse/b") = (str "/a/browse/b", none) := by
  refine ⟨convertUrlToPath_browse r, ?_, by decide⟩
  intro d hd
  rw [convertUrlToPath_browse, hd]

/-- C8, at `r = "/docs%20x"`, which decodes to `/docs x`. -/
theorem C8_prefix_stripped_from_front_witness :
    QueryUnescape (str "/docs%20x") = (str "/docs x", none) ∧
    convertUrlToPath false (str "/browse" ++ str "/docs%20x") = (str "/docs x", none) :=
  ⟨by decide, (C8_prefix_stripped_from_front (str "/docs%20x")).2.1 (str "/docs x") (by decide)⟩

/-- C9: when listing the translated path `p` fails, `browseHandler` writes exactly
`"Not Found : " ++ p` to the response (and prints it to the log), sets no header, and the
outcome does not depend on the template execution, which does not run. -/
theorem C9_not_found (pf : Platform) (readDir : GoString → Option (List FileInfo))
    (execute : PageViewModel → GoString × Bool) (src : GoString)
    (h : readDir (convertUrlToPath pf.windows src).1 = none) :
    browseHandler pf readDir execute Response.empty src =
      { header := [],
        body := str "Not Found : " ++ (convertUrlToPath pf.windows src).1,
        log := [str "Not Found : " ++ (convertUrlToPath pf.windows src).1] } := by
  have he : (convertUrlToPath pf.windows src).2 = none := by simp [convertUrlToPath]
  unfold browseHandler
  generalize convertUrlToPath pf.windows src = res at h he
  obtain ⟨path, err⟩ := res
  simp only at h he
  subst he
  simp only [h]
  simp [writeError, Response.empty]

/-- C9, at the request `/browse/the/requested/path` on a forward-slash platform with a
listing that fails everywhere: the body is `Not Found : /the/requested/path`. -/
theorem C9_not_found_witness :
    (fun _ => none : GoString → Option (List FileInfo))
      (convertUrlToPath unix.windows (str "/browse/the/requested/path")).1 = none ∧
    (browseHandler unix (fun _ => none) (fun _ => (str "<html>", false)) Response.empty
      (str "/browse/the/requested/path")).body = str "Not Found : /the/requested/path" :=
  ⟨rfl, by
    rw [C9_not_found unix (fun _ => none) (fun _ => (str "<html>", false))
      (str "/browse/the/requested/path") rfl]
    decide⟩

/-- C10: on either platform `convertUrlToPath` returns a nil error for every input, and
`browseHandler` never reports `Invalid Path`: for every request it does what its
else-branch does, and that message is never printed. -/
theorem C10_translation_never_fails (pf : Platform)
    (readDir : GoString → Option (List FileInfo))
    (execute : PageViewModel → GoString × Bool) (w : Response) (src : GoString) :
    (convertUrlToPath true src).2 = none ∧ (convertUrlToPath false src).2 = none ∧
    browseHandler pf readDir execute w src =
      (match readDir (convertUrlToPath pf.windows src).1 with
       | none => writeError w (str "Not Found : " ++ (convertUrlToPath pf.windows src).1)
       | some files =>
         writeTemplate pf execute
           { w with header := (str "Content-Type", str "text/html") ::
               w.header.filter (fun kv => kv.1 ≠ str "Content-Type") }
           src (convertUrlToPath pf.windows src).1 files) ∧
    str "Invalid Path" ∉ (browseHandler pf readDir execute Response.empty src).log := by
  have he : ∀ b, (convertUrlToPath b src).2 = none := by intro b; simp [convertUrlToPath]
  have heq : ∀ w : Response, browseHandler pf readDir execute w src =
      (match readDir (convertUrlToPath pf.windows src).1 with
       | none => writeError w (str "Not Found : " ++ (convertUrlToPath pf.windows src).1)
       | some files =>
         writeTemplate pf execute
           { w with header := (str "Content-Type", str "text/html") ::
               w.header.filter (fun kv => kv.1 ≠ str "Content-Type") }
           src (convertUrlToPath pf.windows src).1 files) := by
    intro w
    have h2 := he pf.windows
    unfold browseHandler
    generalize convertUrlToPath pf.windows src = res at h2
    obtain ⟨path, err⟩ := res
    simp only at h2
    subst h2
    rfl
  refine ⟨he true, he false, heq w, ?_⟩
  rw [heq Response.empty]
  cases readDir (convertUrlToPath pf.windows src).1 with
  | none =>
    have h1 : str "Not Found : " = 78 :: str "ot Found : " := by decide
    have h2 : str "Invalid Path" = 73 :: str "nvalid Path" := by decide
    simp only [writeError, Response.empty, List.nil_append, List.mem_singleton, h1, h2,
      List.cons_append]
    intro h
    injection h with h3 _
    exact absurd h3 (by decide)
  | some files =>
    simp only [writeTemplate, Response.empty]
    split
    · simp only [writeError, List.nil_append, List.mem_singleton]
      decide
    · simp

/-- C11: on Windows, when the decoded path is `"/" ++ l ++ r` with a drive letter `l` of
`c`, `d`, `e`, `f` (in particular when `r` is empty or begins with `/`),
`convertUrlToPath` returns `l ++ ":" ++ r` with every `/` of `r` replaced by `\`: one
drive rewrite is applied.  For every input the Windows result holds no `/`.  The request
`/browse/c/Users/x` gives `c:\Users\x`. -/
theorem C11_windows_drive_rewrite (src : GoString) (l : Byte) (r : GoString)
    (hl : l = 99 ∨ l = 100 ∨ l = 101 ∨ l = 102)
    (hd : (QueryUnescape (Replace src (str "/browse") (str "") 1)).1 = str "/" ++ (l :: r)) :
    convertUrlToPath true src =
      (l :: (str ":" ++ r.map (fun c => if c = 47 then 92 else c)), none) ∧
    (∀ input : GoString, 47 ∉ (convertUrlToPath true input).1) ∧
    convertUrlToPath true (str "/browse/c/Users/x") = (str "c:\\Users\\x", none) := by
  have h1 : str "/" = ([47] : GoString) := by decide
  have h2 : str ":" = ([58] : GoString) := by decide
  refine ⟨?_, ?_, by decide⟩
  · have hd2 : (QueryUnescape (Replace src (str "/browse") (str "") 1)).1 = 47 :: l :: r := by
      rw [hd, h1]; rfl
    rw [convertUrlToPath_windows, hd2, drives_rewrite l r hl, h2]
    have hl47 : ¬ l = 47 := by rcases hl with h | h | h | h <;> subst h <;> decide
    simp [hl47]
  · intro input
    rw [convertUrlToPath_windows]
    exact not_mem_map_slash _

/-- C11, at the request path `/browse/d/data/` (decoded path `/d/data/`), which gives
`d:\data\`. -/
theorem C11_windows_drive_rewrite_witness :
    (QueryUnescape (Replace (str "/browse/d/data/") (str "/browse") (str "") 1)).1 =
      str "/" ++ (100 :: str "/data/") ∧
    convertUrlToPath true (str "/browse/d/data/") = (str "d:\\data\\", none) :=
  ⟨by decide, by
    rw [(C11_windows_drive_rewrite (str "/browse/d/data/") 100 (str "/data/")
      (Or.inr (Or.inl rfl)) (by decide)).1]
    decide⟩

/-- C12: on Windows, for a native path `P = l ++ ":" ++ r` with a drive letter `l` of
`c`, `d`, `e`, `f` and no `/` in it (in particular when `r` is empty or begins with `\`),
translating the link built for `P` gives `P` back, with a nil error. -/
theorem C12_windows_roundtrip (l : Byte) (r : GoString)
    (hl : l = 99 ∨ l = 100 ∨ l = 101 ∨ l = 102) (hs : 47 ∉ l :: (str ":" ++ r)) :
    convertUrlToPath true (str "/browse/" ++ convertPathToURL true (l :: (str ":" ++ r))) =
      (l :: (str ":" ++ r), none) := by
  have h1 : str "/browse/" = str "/browse" ++ [47] := by decide
  have h2 : str ":" = ([58] : GoString) := by decide
  have h3 : str "" = ([] : GoString) := by decide
  rw [h2] at hs ⊢
  simp only [List.singleton_append, List.mem_cons, not_or] at hs
  obtain ⟨_, _, hr⟩ := hs
  rw [List.singleton_append]
  have hl58 : l ≠ 58 := by rcases hl with h | h | h | h <;> subst h <;> decide
  have hl92 : ¬ l = 92 := by rcases hl with h | h | h | h <;> subst h <;> decide
  have hl47 : ¬ l = 47 := by rcases hl with h | h | h | h <;> subst h <;> decide
  have hcolon : Replace (l :: 58 :: r) [58] [] 1 = l :: r := by
    have := replace_first_single 58 [] [l] r (by simp; exact fun e => hl58 e.symm) (by simp)
    simpa using this
  have hurl : convertPathToURL true (l :: 58 :: r) =
      QueryEscape (l :: r.map (fun c => if c = 92 then 47 else c)) := by
    simp only [convertPathToURL, if_true, h2, h3, hcolon, replace_backslashes,
      List.singleton_append, List.map_cons, hl92, if_false]
  rw [hurl, convertUrlToPath_windows, h1, List.append_assoc, h3,
    replace_prefix _ _ (by decide), List.singleton_append, queryUnescape_slash_queryEscape,
    drives_rewrite l _ hl]
  simp only [List.map_cons, hl47, if_false, map_slash_backslash r hr]
  simp

/-- C12, at `P = "c:\\Users\\x"`. -/
theorem C12_windows_roundtrip_witness :
    47 ∉ (99 : Byte) :: (str ":" ++ str "\\Users\\x") ∧
    convertUrlToPath true
        (str "/browse/" ++ convertPathToURL true (99 :: (str ":" ++ str "\\Users\\x"))) =
      (str "c:\\Users\\x", none) :=
  ⟨by decide, by
    rw [C12_windows_roundtrip 99 (str "\\Users\\x") (Or.inl rfl) (by decide)]
    decide⟩

/-- C13 (as stated, refuted): a page model with the single item named `No items found.`
(a file) is not empty, and the text `No items found.` is emitted, in the block of that
item. -/
theorem C13_placeholder_counterexample :
    ({ Items := [{ Name := str "No items found.", Url := str "/browse/x/No+items+found.",
                   IsDir := false }] } : PageViewModel).Items ≠ [] ∧
    occurrences (str "No items found.")
      (executePage { Items := [{ Name := str "No items found.",
                                 Url := str "/browse/x/No+items+found.",
                                 IsDir := false }] }) = 1 ∧
    fileItem (str "/browse/x") { Name := str "No items found.", IsDir := false } =
      { Name := str "No items found.", Url := str "/browse/x/No+items+found.",
        IsDir := false } := by
  set_option maxRecDepth 100000 in decide

/-- C13 (amended): executing the page template on a page model without items emits the
placeholder block with `No items found.` once, between the text before and after the
range, and no block of class `directory` or `file`; `writeTemplate` writes this page
for the path `/` without entries.  For every page model with items the placeholder
block is not emitted: the output is the text before the range, the blocks of the items
and the text after it, and it holds no `<div>` without a class. -/
theorem C13_placeholder_amended (page : PageViewModel) :
    (executePage { Items := [] } = pageHead ++ pagePlaceholder ++ pageTail ∧
     occurrences (str "No items found.") (executePage { Items := [] }) = 1 ∧
     occurrences (str "<div>") (executePage { Items := [] }) = 1 ∧
     occurrences (str "class=\"directory\"") (executePage { Items := [] }) = 0 ∧
     occurrences (str "class=\"file\"") (executePage { Items := [] }) = 0 ∧
     (writeTemplate unix executePageTemplate Response.empty (str "/browse/") (str "/")
        []).body = pageHead ++ pagePlaceholder ++ pageTail) ∧
    (page.Items ≠ [] →
      executePage page = pageHead ++ page.Items.flatMap executeItem ++ pageTail ∧
      occurrences (str "<div>") (executePage page) = 0) := by
  refine ⟨by set_option maxRecDepth 100000 in decide, ?_⟩
  intro hne
  refine ⟨by simp only [executePage, hne, if_false], ?_⟩
  have hd : str "<div>" = 60 :: str "div>" := by decide
  obtain ⟨f1, f2, f3, _, g0, g1, g2, g3, g4, g5, o0, o1, o2, o3, o4, o5⟩ :=
    bare_div_in_template
  rw [hd] at f1 f2 f3 g0 g1 g2 g3 g4 g5 o0 o1 o2 o3 o4 o5 ⊢
  have hitem := fun item => occurrences_executeItem (str "div>") item g0 g1 g2 g3 g4 g5
  rw [occurrences_executePage (str "div>") page hne f1 (fun item => (hitem item).1), f2, f3]
  have hz : ∀ item, occurrences (60 :: str "div>") (executeItem item) = 0 := by
    intro item
    rw [(hitem item).2, o0, o1, o2, o3, o4, o5]
    simp
  simp only [hz, sum_zero]

/-- C13 (amended), at the page model with the single file `readme.txt`. -/
theorem C13_placeholder_amended_witness :
    ({ Items := [{ Name := str "readme.txt", Url := str "/browse/x/readme.txt",
                   IsDir := false }] } : PageViewModel).Items ≠ [] ∧
    occurrences (str "<div>")
      (executePage { Items := [{ Name := str "readme.txt", Url := str "/browse/x/readme.txt",
                                 IsDir := false }] }) = 0 :=
  ⟨by decide,
   ((C13_placeholder_amended
      { Items := [{ Name := str "readme.txt", Url := str "/browse/x/readme.txt",
                    IsDir := false }] }).2 (by decide)).2⟩

/-- C14 (as stated, refuted): the item that `writeTemplate` builds for the directory
`R&D` under the request path `/browse/my dir` has the Url `/browse/my dir/R%26D`; its
block holds the anchor `<a href='/browse/my%20dir/R%26D'>R&amp;D</a>`, whose href is not
the Url and whose label text is not the Name as it stands. -/
theorem C14_rendering_counterexample :
    fileItem (str "/browse/my dir") { Name := str "R&D", IsDir := true } =
      { Name := str "R&D", Url := str "/browse/my dir/R%26D", IsDir := true } ∧
    executeItem { Name := str "R&D", Url := str "/browse/my dir/R%26D", IsDir := true } =
      str "\n\t\t\n\t\t<div class=\"directory\">\n\t\t<a href='/browse/my%20dir/R%26D'>R&amp;D</a>\n\t\t</div>\n\t\t\n\t\t" ∧
    occurrences (str "href='/browse/my dir/R%26D'")
      (executePage { Items := [{ Name := str "R&D", Url := str "/browse/my dir/R%26D",
                                 IsDir := true }] }) = 0 ∧
    occurrences (str ">R&D<")
      (executePage { Items := [{ Name := str "R&D", Url := str "/browse/my dir/R%26D",
                                 IsDir := true }] }) = 0 := by
  set_option maxRecDepth 100000 in decide

/-- C14 (amended): the rendered document holds one block per item, in item order, between
the text before and after the range.  An item with `IsDir` set renders as a block of
class `directory` with an anchor whose `href` is the Url of the item passed through
`urlFilter`, `urlNormalizer` and `attrEscaper` and whose label is the Name passed through
`htmlEscaper`; an item without `IsDir` renders as a block of class `file` with a span
labelled with the escaped Name, and no anchor.  The escaped values hold no `<`, the
`href` no single quote, and a Url or Name of letters, digits and `-._~/` is rendered as
it stands.  The number of anchors in the output is the number of items with `IsDir`
set. -/
theorem C14_rendering_amended (page : PageViewModel) :
    (page.Items ≠ [] →
      executePage page = pageHead ++ page.Items.flatMap executeItem ++ pageTail) ∧
    (∀ item : ItemViewModel, item.IsDir = true →
      executeItem item =
        str "\n\t\t" ++ (str "\n\t\t<div class=\"directory\">\n\t\t<a href='" ++
          (template.attrEscaper (template.urlNormalizer (template.urlFilter item.Url)) ++
            (str "'>" ++ (template.htmlEscaper item.Name ++
              (str "</a>\n\t\t</div>\n\t\t" ++ str "\n\t\t")))))) ∧
    (∀ item : ItemViewModel, item.IsDir = false →
      executeItem item =
        str "\n\t\t" ++ (str "\n\t\t<div class=\"file\">\t\t\n\t\t<span>" ++
          (template.htmlEscaper item.Name ++
            (str "</span>\n\t\t</div>\n\t\t" ++ str "\n\t\t"))) ∧
      occurrences (str "<a ") (executeItem item) = 0) ∧
    (∀ s : GoString, 60 ∉ template.htmlEscaper s ∧ 60 ∉ template.attrEscaper s ∧
      39 ∉ template.attrEscaper s) ∧
    (∀ s : GoString, (∀ b ∈ s, shouldEscape b = false ∨ b = 47) →
      template.htmlEscaper s = s ∧
      template.attrEscaper (template.urlNormalizer (template.urlFilter s)) = s) ∧
    occurrences (str "<a ") (executePage page) =
      page.Items.countP (fun item => item.IsDir) := by
  have ha : str "<a " = 60 :: str "a " := by decide
  obtain ⟨f1, f2, f3, f4, g0, g1, g2, g3, g4, g5, o0, o1, o2, o3, o4, o5⟩ :=
    anchor_in_template
  rw [ha] at f1 f2 f3 f4 g0 g1 g2 g3 g4 g5 o0 o1 o2 o3 o4 o5 ⊢
  have hitem := fun item => occurrences_executeItem (str "a ") item g0 g1 g2 g3 g4 g5
  have hocc : ∀ item, occurrences (60 :: str "a ") (executeItem item) =
      if item.IsDir = true then 1 else 0 := by
    intro item
    rw [(hitem item).2, o0, o1, o2, o3, o4, o5]
  refine ⟨?_, executeItem_dir, ?_, ?_, ?_, ?_⟩
  · intro hne
    simp only [executePage, hne, if_false]
  · intro item hf
    refine ⟨executeItem_file item hf, ?_⟩
    rw [hocc item, hf]
    rfl
  · intro s
    exact ⟨(htmlReplacer_delims s).1, (htmlReplacer_delims s).1, (htmlReplacer_delims s).2.2.1⟩
  · intro s hs
    exact ⟨htmlReplacer_plain s (fun b hb => (unreserved_kept b (hs b hb)).1),
      url_escapers_plain s hs⟩
  · by_cases hne : page.Items = []
    · have hp : executePage page = pageHead ++ (pagePlaceholder ++ pageTail) := by
        simp only [executePage, hne, if_true, List.append_assoc]
      rw [hp, hne, occurrences_append _ _ _ f1, f2,
        occurrences_append _ _ _ (by rw [← ha]; exact placeholder_closed.1), f3, f4]
      rfl
    · rw [occurrences_executePage (str "a ") page hne f1 (fun item => (hitem item).1), f2, f3]
      simp only [hocc, sum_isDir]
      omega

/-- C14 (amended), at the page model of Scenario A: the parent item, the directory
`docs` and the file `readme.txt` give two anchors. -/
theorem C14_rendering_amended_witness :
    (buildPageViewModel unix (str "/browse/%2Fhome%2Fuser") (str "/home/user")
        [{ Name := str "docs", IsDir := true },
         { Name := str "readme.txt", IsDir := false }]).Items ≠ [] ∧
    executePage (buildPageViewModel unix (str "/browse/%2Fhome%2Fuser") (str "/home/user")
        [{ Name := str "docs", IsDir := true },
         { Name := str "readme.txt", IsDir := false }]) =
      pageHead ++
        (buildPageViewModel unix (str "/browse/%2Fhome%2Fuser") (str "/home/user")
          [{ Name := str "docs", IsDir := true },
           { Name := str "readme.txt", IsDir := false }]).Items.flatMap executeItem ++
        pageTail ∧
    (buildPageViewModel unix (str "/browse/%2Fhome%2Fuser") (str "/home/user")
        [{ Name := str "docs", IsDir := true },
         { Name := str "readme.txt", IsDir := false }]).Items.countP
      (fun item => item.IsDir) = 2 :=
  ⟨by decide, (C14_rendering_amended _).1 (by decide), by decide⟩

/-- C15: `convertUrlToPath` checks no containment.  On a forward-slash platform the result
is the decoded remainder itself, so every segment of it, `..` included, is a segment of
the result: `/browse/srv/data/../../etc` gives `/srv/data/../../etc`, with both `..`
segments. -/
theorem C15_dotdot_survives :
    convertUrlToPath false (str "/browse/srv/data/../../etc") =
      (str "/srv/data/../../etc", none) ∧
    ((convertUrlToPath false (str "/browse/srv/data/../../etc")).1.splitOn 47).count
      (str "..") = 2 ∧
    (∀ src : GoString, (convertUrlToPath false src).1 =
      (QueryUnescape (Replace src (str "/browse") (str "") 1)).1) ∧
    (∀ (src seg : GoString),
      seg ∈ (QueryUnescape (Replace src (str "/browse") (str "") 1)).1.splitOn 47 →
      seg ∈ (convertUrlToPath false src).1.splitOn 47) := by
  refine ⟨by decide, by decide, ?_, ?_⟩
  · intro src; rw [convertUrlToPath_unix]
  · intro src seg h; rw [convertUrlToPath_unix]; exact h

/-- C15, for the segment `..` of the request path `/browse/a/../b`. -/
theorem C15_dotdot_survives_witness :
    str ".." ∈ (QueryUnescape (Replace (str "/browse/a/../b") (str "/browse") (str "")
      1)).1.splitOn 47 ∧
    str ".." ∈ (convertUrlToPath false (str "/browse/a/../b")).1.splitOn 47 :=
  ⟨by decide, C15_dotdot_survives.2.2.2 (str "/browse/a/../b") (str "..") (by decide)⟩

/-- C16 (the code at the failing input): on Windows the request path `/browse/code/x` has
the decoded path `/code/x`, whose first segment is `code`, not a single letter; the
drive rewrite is applied all the same and the result is `c:ode\x`, where the colon is
followed by `o`. -/
theorem C16_rewrite_inside_segment :
    (QueryUnescape (Replace (str "/browse/code/x") (str "/browse") (str "") 1)).1 =
      str "/code/x" ∧
    (str "/code/x").splitOn 47 = [str "", str "code", str "x"] ∧
    convertUrlToPath true (str "/browse/code/x") = (str "c:ode\\x", none) ∧
    (convertUrlToPath true (str "/browse/code/x")).1.drop 2 = str "ode\\x" := by
  decide

/-- C17: on a forward-slash platform, for a request path `"/browse" ++ r` whose remainder
`r` decodes without error and for every entry name `n`, the link built for the entry,
`src ++ "/" ++ url.QueryEscape(n)`, translates to the translation of `src` followed by
`/` and `n`. -/
theorem C17_entry_link_navigates (r n : GoString) (h : (QueryUnescape r).2 = none) :
    convertUrlToPath false ((str "/browse" ++ r) ++ str "/" ++ QueryEscape n) =
      ((convertUrlToPath false (str "/browse" ++ r)).1 ++ str "/" ++ n, none) ∧
    (fileItem (str "/browse" ++ r) { Name := n, IsDir := true }).Url =
      (str "/browse" ++ r) ++ str "/" ++ QueryEscape n := by
  refine ⟨?_, rfl⟩
  have h2 : str "/" = ([47] : GoString) := by decide
  obtain ⟨p, hp⟩ := scan_ok_of_no_error r h
  rw [List.append_assoc, List.append_assoc, convertUrlToPath_browse, convertUrlToPath_browse,
    queryUnescape_of_scan_ok r p hp, h2, queryEscape_eq]
  obtain ⟨q, hq⟩ := unescapeScan_escapeBuild n p.1 p.2
  obtain ⟨a1, a2⟩ := unescape_append _ r (Nat.le_refl _) ([47] ++ escapeBuild n) 0 false p hp
  have hs : unescapeScan (r ++ ([47] ++ escapeBuild n)) 0 false = .ok q := by
    rw [a1, List.singleton_append, unescapeScan_plain 47 (by decide) (by decide)]; exact hq
  rw [queryUnescape_of_scan_ok _ q hs, a2, List.singleton_append,
    unescapeBuild_plain 47 (by decide) (by decide), unescapeBuild_escapeBuild]
  simp

/-- C17, at the request path `/browse/home` and the entry name `a b&c.txt`. -/
theorem C17_entry_link_navigates_witness :
    (QueryUnescape (str "/home")).2 = none ∧
    convertUrlToPath false ((str "/browse" ++ str "/home") ++ str "/" ++
        QueryEscape (str "a b&c.txt")) =
      ((convertUrlToPath false (str "/browse" ++ str "/home")).1 ++ str "/" ++
        str "a b&c.txt", none) :=
  ⟨by decide, (C17_entry_link_navigates (str "/home") (str "a b&c.txt") (by decide)).1⟩

/-- C18: on a forward-slash platform, for every string `P`, `convertPathToURL(P)` holds no
`/`; translating `"/browse/" ++ convertPathToURL(P)` gives `"/" ++ P`; and translating
`convertPathToURL(P)` itself, without the route prefix, gives `P`. -/
theorem C18_parent_link_exact (P : GoString) :
    47 ∉ convertPathToURL false P ∧
    convertUrlToPath false (str "/browse/" ++ convertPathToURL false P) =
      (str "/" ++ P, none) ∧
    convertUrlToPath false (convertPathToURL false P) = (P, none) := by
  have hno : 47 ∉ convertPathToURL false P := by
    intro hm
    simp only [convertPathToURL, Bool.false_eq_true, if_false] at hm
    rw [queryEscape_eq] at hm
    have := queryEscapedByte_escapeBuild P 47 hm
    exact absurd this (by decide)
  refine ⟨hno, convertUrlToPath_parent_link P, ?_⟩
  have hb : str "/browse" = 47 :: str "browse" := by decide
  rw [convertUrlToPath_unix, hb, replace_absent 47 _ _ _ _ hno]
  simp only [convertPathToURL, Bool.false_eq_true, if_false]
  rw [queryUnescape_queryEscape]

/-- C19: `trimSuffix` removes one instance of the suffix: when `s` ends with `suffix` the
result followed by `suffix` is `s`, otherwise the result is `s`; when the slice
`s[:len(s)-len(suffix)]` is taken its index is within `0..len(s)`; and the result is
always a prefix of `s`. -/
theorem C19_trimSuffix (s suffix : GoString) :
    (suffix <:+ s → trimSuffix s suffix ++ suffix = s) ∧
    (¬ suffix <:+ s → trimSuffix s suffix = s) ∧
    (HasSuffix s suffix = true ↔ suffix <:+ s) ∧
    (HasSuffix s suffix = true →
      suffix.length ≤ s.length ∧ s.length - suffix.length ≤ s.length) ∧
    trimSuffix s suffix <+: s := by
  have hiff := hasSuffix_iff s suffix
  refine ⟨?_, ?_, hiff, ?_, ?_⟩
  · intro h
    have hs := hiff.mpr h
    obtain ⟨t, ht⟩ := h
    subst ht
    simp [trimSuffix, hs]
  · intro h
    have hs : HasSuffix s suffix = false := by
      cases hb : HasSuffix s suffix with
      | false => rfl
      | true => exact absurd (hiff.mp hb) h
    simp [trimSuffix, hs]
  · intro h
    obtain ⟨t, ht⟩ := hiff.mp h
    subst ht
    simp
  · unfold trimSuffix
    split
    · exact List.take_prefix _ _
    · exact List.prefix_refl _

/-- C19, at `s = "/home/"` with the suffix `/`, and at `s = "/home"`, which does not end
with it. -/
theorem C19_trimSuffix_witness :
    (str "/" <:+ str "/home/" ∧ trimSuffix (str "/home/") (str "/") ++ str "/" = str "/home/") ∧
    (¬ str "/" <:+ str "/home" ∧ trimSuffix (str "/home") (str "/") = str "/home") :=
  ⟨⟨(C19_trimSuffix (str "/home/") (str "/")).2.2.1.mp (by decide),
    (C19_trimSuffix (str "/home/") (str "/")).1
      ((C19_trimSuffix (str "/home/") (str "/")).2.2.1.mp (by decide))⟩,
   ⟨fun h => absurd ((C19_trimSuffix (str "/home") (str "/")).2.2.1.mpr h) (by decide),
    (C19_trimSuffix (str "/home") (str "/")).2.1
      (fun h => absurd ((C19_trimSuffix (str "/home") (str "/")).2.2.1.mpr h) (by decide))⟩⟩

end Explorer
